import Mathlib

/-!
Shallow embedding of the MDPI collusion-analysis pipeline (`src/main.py`):
record ingestion, construction of the partially directed relationship
graph, suspicious-pattern detection, suspicion scoring and co-author
cluster analysis.  Python dictionaries are modelled as association lists
that preserve insertion order (append new keys at the end, update
existing keys in place), matching CPython dict semantics.  The Python
substring test `label in relationship_string` is modelled by an explicit
character-list substring function.
-/

set_option maxRecDepth 10000

namespace MDPI

/-- Generic ordered association-list lookup: first entry whose key matches. -/
def lookupA {α β : Type} [DecidableEq α] : List (α × β) → α → Option β
  | [], _ => none
  | (k, v) :: rest, key => if key = k then some v else lookupA rest key

/-- Update every entry holding the given key in place (dict value assignment). -/
def updateA {α β : Type} [DecidableEq α] (l : List (α × β)) (key : α) (f : β → β) :
    List (α × β) :=
  l.map (fun kv => if kv.1 = key then (kv.1, f kv.2) else kv)

/-- Occurrence count of an element in a list of strings. -/
def countS : List String → String → Nat
  | [], _ => 0
  | a :: rest, p => (if a = p then 1 else 0) + countS rest p

/-- Character-list test: does the first list occur as a leading segment of the second. -/
def leadsCL : List Char → List Char → Bool
  | [], _ => true
  | _ :: _, [] => false
  | a :: as, b :: bs => a = b && leadsCL as bs

/-- Character-list substring occurrence test. -/
def withinCL (pat : List Char) : List Char → Bool
  | [] => pat.isEmpty
  | s@(_ :: rest) => leadsCL pat s || withinCL pat rest

/-- Python's `pat in s` substring membership on strings. -/
def strContains (s pat : String) : Bool := withinCL pat.data s.data

/-- Number of positions at which the pattern occurs as a substring. -/
def subCount (pat : List Char) : List Char → Nat
  | [] => 0
  | s@(_ :: rest) => (if leadsCL pat s then 1 else 0) + subCount pat rest

/-- Occurrence count of a pattern string inside a string. -/
def strOccur (s pat : String) : Nat := subCount pat.data s.data

/-- An input article record (fields already defaulted as by `entry.get`). -/
structure Record where
  title : String
  journal : String
  special_issue : String
  editors : List String
  authors : List String
deriving Repr, DecidableEq

/-- Node attributes stored by `G.add_node(ed, name=ed, editor_count=0, author_count=0)`. -/
structure NodeData where
  name : String
  editor_count : Nat
  author_count : Nat
deriving Repr, DecidableEq

/-- Edge attributes: `relationship` comma-joined label string, shared
`issues` and `titles` metadata lists. -/
structure EdgeData where
  relationship : String
  issues : List String
  titles : List String
deriving Repr, DecidableEq

/-- The partially directed graph: insertion-ordered node and edge dictionaries. -/
structure Graph where
  nodes : List (String × NodeData)
  edges : List ((String × String) × EdgeData)
deriving Repr, DecidableEq

/-- `normalize_name`: lowercase and strip surrounding whitespace. -/
def normalize_name (name : String) : String :=
  String.mk ((((name.data.dropWhile Char.isWhitespace).reverse.dropWhile
    Char.isWhitespace).reverse).map Char.toLower)

/-- The venue identifier `f"{journal} :: {special_issue}"`. -/
def issueId (r : Record) : String := r.journal ++ " :: " ++ r.special_issue

/-- Ensure a node exists (lazily created with zero counters). -/
def ensureNode (G : Graph) (p : String) : Graph :=
  if (lookupA G.nodes p).isSome then G
  else { G with nodes := G.nodes ++ [(p, ⟨p, 0, 0⟩)] }

/-- Editor appearance: create node if absent, then increment `editor_count`. -/
def registerEditor (G : Graph) (p : String) : Graph :=
  let G := ensureNode G p
  { G with nodes := updateA G.nodes p (fun nd => { nd with editor_count := nd.editor_count + 1 }) }

/-- Author appearance: create node if absent, then increment `author_count`. -/
def registerAuthor (G : Graph) (p : String) : Graph :=
  let G := ensureNode G p
  { G with nodes := updateA G.nodes p (fun nd => { nd with author_count := nd.author_count + 1 }) }

/-- One `add_edge`-or-merge step of the builder: create the edge with the
given label and singleton metadata, or append the label (if missing as a
substring) and the venue/title to an existing edge's lists. -/
def stepEdge (o : Option EdgeData) (label iss t : String) : EdgeData :=
  match o with
  | none => ⟨label, [iss], [t]⟩
  | some d =>
      ⟨if strContains d.relationship label then d.relationship
        else d.relationship ++ "," ++ label,
       d.issues ++ [iss], d.titles ++ [t]⟩

/-- Create or merge the directed edge `(u, v)`. -/
def recordEdge (G : Graph) (u v : String) (label iss t : String) : Graph :=
  match lookupA G.edges (u, v) with
  | none => { G with edges := G.edges ++ [((u, v), stepEdge none label iss t)] }
  | some _ =>
      { G with edges := updateA G.edges (u, v) (fun d => stepEdge (some d) label iss t) }

/-- Register every editor occurrence of a record. -/
def registerEditors : Graph → List String → Graph
  | G, [] => G
  | G, e :: es => registerEditors (registerEditor G e) es

/-- Register every author occurrence of a record. -/
def registerAuthors : Graph → List String → Graph
  | G, [] => G
  | G, a :: as => registerAuthors (registerAuthor G a) as

/-- Inner loop of the editor-to-author cross product: one editor against
every author. -/
def addEdAuRow (G : Graph) (ed : String) : List String → String → String → Graph
  | [], _, _ => G
  | au :: aus, iss, t =>
      addEdAuRow (recordEdge G ed au "editor_to_author" iss t) ed aus iss t

/-- Full editor × author cross product of one record. -/
def addEdAuEdges (G : Graph) : List String → List String → String → String → Graph
  | [], _, _, _ => G
  | ed :: eds, authors, iss, t =>
      addEdAuEdges (addEdAuRow G ed authors iss t) eds authors iss t

/-- The ordered pairs `(authors[i], authors[j])` for `i < j`. -/
def coPairs : List String → List (String × String)
  | [] => []
  | a :: rest => rest.map (fun b => (a, b)) ++ coPairs rest

/-- Add both directed co-author edges for each unordered author pair. -/
def addCoEdges (G : Graph) : List (String × String) → String → String → Graph
  | [], _, _ => G
  | (a1, a2) :: rest, iss, t =>
      addCoEdges (recordEdge (recordEdge G a1 a2 "co_author" iss t)
        a2 a1 "co_author" iss t) rest iss t

/-- Fold one article record into the graph, mirroring the body of the
builder's `for entry in articles` loop. -/
def processRecord (G : Graph) (entry : Record) : Graph :=
  let iss := issueId entry
  let t := entry.title
  let editors := entry.editors.map normalize_name
  let authors := entry.authors.map normalize_name
  let G1 := registerEditors G editors
  let G2 := registerAuthors G1 authors
  let G3 := addEdAuEdges G2 editors authors iss t
  addCoEdges G3 (coPairs authors) iss t

/-- `build_partially_directed_graph`: fold all records into an empty graph. -/
def build_graph (articles : List Record) : Graph :=
  articles.foldl processRecord ⟨[], []⟩

/-! ### Suspicious-pattern detection (`detect_suspicious_patterns`) -/

/-- The role set recorded for a (person, venue) pair: membership flags for
the roles `editor` and `author`. -/
structure RolePair where
  editor : Bool
  author : Bool
deriving Repr, DecidableEq

/-- Inner dictionary update `…setdefault(iss, set()).add(role)`. -/
def addRoleInner (l : List (String × RolePair)) (iss : String) (isEd : Bool) :
    List (String × RolePair) :=
  match lookupA l iss with
  | none => l ++ [(iss, if isEd then ⟨true, false⟩ else ⟨false, true⟩)]
  | some _ =>
      updateA l iss (fun rp => if isEd then { rp with editor := true } else { rp with author := true })

/-- Outer dictionary update `person_issue_roles.setdefault(p, {})…`. -/
def addRole (m : List (String × List (String × RolePair))) (p iss : String) (isEd : Bool) :
    List (String × List (String × RolePair)) :=
  match lookupA m p with
  | none => m ++ [(p, addRoleInner [] iss isEd)]
  | some _ => updateA m p (fun inner => addRoleInner inner iss isEd)

/-- Record roles for every venue of one `editor_to_author` edge. -/
def rolesOfIssues (m : List (String × List (String × RolePair))) (u v : String) :
    List String → List (String × List (String × RolePair))
  | [] => m
  | iss :: rest => rolesOfIssues (addRole (addRole m u iss true) v iss false) u v rest

/-- Scan of the edge list building `person_issue_roles`. -/
def rolesOfEdges (m : List (String × List (String × RolePair))) :
    List ((String × String) × EdgeData) → List (String × List (String × RolePair))
  | [] => m
  | ((u, v), d) :: rest =>
      rolesOfEdges
        (if strContains d.relationship "editor_to_author" then rolesOfIssues m u v d.issues else m)
        rest

/-- `person_issue_roles`: person → venue → roles, from editor-to-author edges. -/
def person_issue_roles (G : Graph) : List (String × List (String × RolePair)) :=
  rolesOfEdges [] G.edges

/-- A self-overlap report `{person, issue}`. -/
structure SelfOverlap where
  person : String
  issue : String
deriving Repr, DecidableEq

/-- Collect self-overlaps of one person's venue dictionary. -/
def selfOfInner (acc : List SelfOverlap) (p : String) :
    List (String × RolePair) → List SelfOverlap
  | [] => acc
  | (iss, rp) :: rest =>
      selfOfInner (if rp.editor && rp.author then acc ++ [⟨p, iss⟩] else acc) p rest

/-- Collect self-overlaps over the whole roles dictionary. -/
def selfOfRoles (acc : List SelfOverlap) :
    List (String × List (String × RolePair)) → List SelfOverlap
  | [] => acc
  | (p, inner) :: rest => selfOfRoles (selfOfInner acc p inner) rest

/-- The self-overlap pass of the detector. -/
def self_overlaps (G : Graph) : List SelfOverlap :=
  selfOfRoles [] (person_issue_roles G)

/-- Append the venues of one edge under its ordered pair in `ed_au_map`. -/
def edAuIssues (m : List ((String × String) × List String)) (u v : String) :
    List String → List ((String × String) × List String)
  | [] => m
  | iss :: rest =>
      edAuIssues
        (match lookupA m (u, v) with
         | none => m ++ [((u, v), [iss])]
         | some _ => updateA m (u, v) (fun l => l ++ [iss])) u v rest

/-- Scan of the edge list building `ed_au_map`. -/
def edAuOfEdges (m : List ((String × String) × List String)) :
    List ((String × String) × EdgeData) → List ((String × String) × List String)
  | [] => m
  | ((u, v), d) :: rest =>
      edAuOfEdges
        (if strContains d.relationship "editor_to_author" then edAuIssues m u v d.issues else m)
        rest

/-- `ed_au_map`: ordered pair → list of venues, from editor-to-author edges. -/
def ed_au_map (G : Graph) : List ((String × String) × List String) :=
  edAuOfEdges [] G.edges

/-- A reciprocal report `{personA, personB, issues_A_ed_B_auth, issues_B_ed_A_auth}`. -/
structure Recip where
  personA : String
  personB : String
  issues_A_ed_B_auth : List String
  issues_B_ed_A_auth : List String
deriving Repr, DecidableEq

/-- Emit a reciprocal record for every map entry whose reverse pair is present. -/
def recipOfMap (acc : List Recip) (m : List ((String × String) × List String)) :
    List ((String × String) × List String) → List Recip
  | [] => acc
  | ((u, v), issues_uv) :: rest =>
      recipOfMap
        (match lookupA m (v, u) with
         | some issues_vu => acc ++ [⟨u, v, issues_uv, issues_vu⟩]
         | none => acc) m rest

/-- The reciprocal pass of the detector. -/
def reciprocals (G : Graph) : List Recip :=
  recipOfMap [] (ed_au_map G) (ed_au_map G)

/-- The detector's output: self-overlap and reciprocal report sequences. -/
structure Suspicions where
  self_overlap : List SelfOverlap
  reciprocal : List Recip
deriving Repr, DecidableEq

/-- `detect_suspicious_patterns`. -/
def detect_suspicious_patterns (G : Graph) : Suspicions :=
  ⟨self_overlaps G, reciprocals G⟩

/-! ### Scoring (`score_suspicion`) -/

/-- `score_map[p] = score_map.get(p, 0) + k`. -/
def bump (m : List (String × Nat)) (p : String) (k : Nat) : List (String × Nat) :=
  match lookupA m p with
  | none => m ++ [(p, k)]
  | some _ => updateA m p (fun n => n + k)

/-- Fold the self-overlap entries: `+3` each. -/
def scoreSelf (m : List (String × Nat)) : List SelfOverlap → List (String × Nat)
  | [] => m
  | so :: rest => scoreSelf (bump m so.person 3) rest

/-- Fold the reciprocal entries: `+2` to each of the two people. -/
def scoreRecip (m : List (String × Nat)) : List Recip → List (String × Nat)
  | [] => m
  | r :: rest => scoreRecip (bump (bump m r.personA 2) r.personB 2) rest

/-- `score_suspicion`: person → suspicion score. -/
def score_suspicion (s : Suspicions) : List (String × Nat) :=
  scoreRecip (scoreSelf [] s.self_overlap) s.reciprocal

/-! ### Co-author cluster analysis (`find_coauthor_clusters_directed`) -/

/-- The co-author edge keys selected by the relationship-label filter. -/
def coEdgeKeys (G : Graph) : List (String × String) :=
  (G.edges.filter (fun e => strContains e.2.relationship "co_author")).map (fun e => e.1)

/-- First-occurrence list of the endpoints of the selected edges. -/
def coNodes : List (String × String) → List String
  | [] => []
  | (u, v) :: rest =>
      let ns := coNodes rest
      let ns := if v ∈ ns then ns else v :: ns
      if u ∈ ns then ns else u :: ns

/-- Undirected adjacency over an edge-key list. -/
def adjacentB (es : List (String × String)) (a b : String) : Bool :=
  es.any (fun e => (e.1 = a && e.2 = b) || (e.1 = b && e.2 = a))

/-- One closure step: adjoin every node adjacent to the current set. -/
def expandComp (es : List (String × String)) (nodes : List String)
    (comp : List String) : List String :=
  comp ++ nodes.filter (fun n => n ∉ comp && comp.any (fun c => adjacentB es n c))

/-- Iterate the closure step a fixed number of times. -/
def iterExpand (es : List (String × String)) (nodes : List String) :
    Nat → List String → List String
  | 0, comp => comp
  | n + 1, comp => iterExpand es nodes n (expandComp es nodes comp)

/-- Connected component of a seed node, by iterating the closure step. -/
def componentOf (es : List (String × String)) (nodes : List String) (n : String) :
    List String :=
  iterExpand es nodes nodes.length [n]

/-- All connected components of the symmetrized co-author subgraph. -/
def componentsOf (es : List (String × String)) (nodes : List String) :
    List (List String) :=
  (nodes.foldl
    (fun st n => if n ∈ st.2 then st else ((st.1 ++ [componentOf es nodes n]),
      st.2 ++ componentOf es nodes n)) (([] : List (List String)), ([] : List String))).1

/-- Lexicographic code-point comparison of character lists. -/
def charLeB : List Char → List Char → Bool
  | [], _ => true
  | _ :: _, [] => false
  | c :: cs, d :: ds =>
      if c.val.toNat = d.val.toNat then charLeB cs ds
      else decide (c.val.toNat < d.val.toNat)

/-- Lexicographic code-point comparison of strings (Python string order). -/
def strLeB (a b : String) : Bool := charLeB a.data b.data

/-- Sorted insertion for lexicographic string order. -/
def insSorted (x : String) : List String → List String
  | [] => [x]
  | y :: ys => if strLeB x y then x :: y :: ys else y :: insSorted x ys

/-- Insertion sort by lexicographic string order (Python `sorted`). -/
def sortNames (l : List String) : List String :=
  l.foldr insSorted []

/-- `find_coauthor_clusters_directed`: symmetrize the co-author subgraph,
compute connected components, keep those with more than two members,
each as a sorted name sequence. -/
def find_coauthor_clusters_directed (G : Graph) : List (List String) :=
  let es := coEdgeKeys G
  let comps := componentsOf es (coNodes es)
  (comps.map sortNames).filter (fun c => c.length > 2)

/-! ### Record ingestion (`load_and_merge_data`) -/

/-- One input source as the loader observes it: a path that does not exist,
a path that exists but whose `open` call raises (a directory, a permission
error), a file that opens but whose content fails to parse, or a
successfully parsed record list. -/
inductive Source where
  | missing : Source
  | unopenable : Source
  | malformed : Source
  | parsed : List Record → Source
deriving Repr, DecidableEq

/-- `load_and_merge_data`: a missing path is skipped with a warning, a parse
failure is caught inside the `try` and that source contributes nothing, and
parsed record lists are concatenated in order; but the `open` call sits
outside the `try`, so a source that exists and cannot be opened raises an
uncaught exception that aborts the whole load (`none`), discarding the
records accumulated so far and never reaching the remaining sources. -/
def load_and_merge_data : List Source → Option (List Record)
  | [] => some []
  | .missing :: rest => load_and_merge_data rest
  | .unopenable :: _ => none
  | .malformed :: rest => load_and_merge_data rest
  | .parsed rs :: rest => (load_and_merge_data rest).map (fun l => rs ++ l)

/-! ### Reference counting functions

Closed-form counts of how often a record list contributes to a node's
counters or an edge's metadata, used to characterize the builder. -/

/-- Occurrences of a normalized name in the record's editor list. -/
def editorOcc (r : Record) (p : String) : Nat :=
  countS (r.editors.map normalize_name) p

/-- Occurrences of a normalized name in the record's author list. -/
def authorOcc (r : Record) (p : String) : Nat :=
  countS (r.authors.map normalize_name) p

/-- Total editor appearances of a person across a record list. -/
def edCount : List Record → String → Nat
  | [], _ => 0
  | r :: rest, p => editorOcc r p + edCount rest p

/-- Total author appearances of a person across a record list. -/
def auCount : List Record → String → Nat
  | [], _ => 0
  | r :: rest, p => authorOcc r p + auCount rest p

/-- Editor-to-author contributions of one record to the ordered pair `(u, v)`:
every editor occurrence of `u` is crossed with every author occurrence of `v`. -/
def edauOcc (r : Record) (u v : String) : Nat :=
  editorOcc r u * authorOcc r v

/-- Co-author contributions of an author list to the ordered pair `(u, v)`:
index pairs `i < j` whose names match `(u, v)` in either orientation. -/
def coPairCount : List String → String → String → Nat
  | [], _, _ => 0
  | a :: rest, u, v =>
      (if a = u then countS rest v else 0) + (if a = v then countS rest u else 0) +
        coPairCount rest u v

/-- Co-author contributions of one record to the ordered pair `(u, v)`. -/
def coOcc (r : Record) (u v : String) : Nat :=
  coPairCount (r.authors.map normalize_name) u v

/-- Total editor-to-author contributions of a record list to `(u, v)`. -/
def edauTotal : List Record → String → String → Nat
  | [], _, _ => 0
  | r :: rest, u, v => edauOcc r u v + edauTotal rest u v

/-- Total co-author contributions of a record list to `(u, v)`. -/
def coTotal : List Record → String → String → Nat
  | [], _, _ => 0
  | r :: rest, u, v => coOcc r u v + coTotal rest u v

/-! ### Association-list lemmas -/

theorem lookupA_append {α β : Type} [DecidableEq α] (l1 l2 : List (α × β)) (k : α) :
    lookupA (l1 ++ l2) k = ((lookupA l1 k).rec (lookupA l2 k) (fun v => some v)) := by
  induction l1 with
  | nil => simp [lookupA]
  | cons hd tl ih =>
      rcases hd with ⟨k', v⟩
      by_cases h : k = k' <;> simp [lookupA, h, ih]

theorem updateA_cons {α β : Type} [DecidableEq α] (a : α) (v : β) (tl : List (α × β))
    (k : α) (f : β → β) :
    updateA ((a, v) :: tl) k f =
      (if a = k then (a, f v) else (a, v)) :: updateA tl k f := by
  simp only [updateA, List.map_cons]

theorem lookupA_updateA {α β : Type} [DecidableEq α] (l : List (α × β)) (k k' : α)
    (f : β → β) :
    lookupA (updateA l k f) k' =
      if k' = k then (lookupA l k').map f else lookupA l k' := by
  induction l with
  | nil => simp [lookupA, updateA]
  | cons hd tl ih =>
      rcases hd with ⟨a, v⟩
      rw [updateA_cons]
      by_cases h1 : a = k
      · rw [if_pos h1]
        by_cases h2 : k' = a
        · subst h1; subst h2
          simp [lookupA]
        · rw [lookupA, if_neg h2, ih, lookupA, if_neg h2]
      · rw [if_neg h1]
        by_cases h2 : k' = a
        · subst h2
          have hk : ¬ k' = k := fun h => h1 (h ▸ rfl)
          rw [lookupA, if_pos rfl, if_neg hk, lookupA, if_pos rfl]
        · rw [lookupA, if_neg h2, ih, lookupA, if_neg h2]

theorem lookupA_eq_none_iff {α β : Type} [DecidableEq α] (l : List (α × β)) (k : α) :
    lookupA l k = none ↔ k ∉ l.map Prod.fst := by
  induction l with
  | nil => simp [lookupA]
  | cons hd tl ih =>
      rcases hd with ⟨a, v⟩
      by_cases h : k = a <;> simp [lookupA, h, ih]

theorem updateA_keys {α β : Type} [DecidableEq α] (l : List (α × β)) (k : α) (f : β → β) :
    (updateA l k f).map Prod.fst = l.map Prod.fst := by
  induction l with
  | nil => rfl
  | cons hd tl ih =>
      by_cases h : hd.1 = k <;> simp [updateA, h] at ih ⊢ <;> simpa [updateA] using ih

/-! ### Exact per-key effect of the builder -/

/-- Apply `stepEdge` with fixed label and metadata a given number of times. -/
def applyN (o : Option EdgeData) (label iss t : String) : Nat → Option EdgeData
  | 0 => o
  | n + 1 => some (stepEdge (applyN o label iss t n) label iss t)

theorem applyN_applyN (o : Option EdgeData) (label iss t : String) (n m : Nat) :
    applyN (applyN o label iss t n) label iss t m = applyN o label iss t (n + m) := by
  induction m with
  | zero => rfl
  | succ m ih => rw [applyN, ih]; rfl

theorem recordEdge_nodes (G : Graph) (u v label iss t : String) :
    (recordEdge G u v label iss t).nodes = G.nodes := by
  unfold recordEdge
  cases lookupA G.edges (u, v) <;> rfl

theorem recordEdge_lookup (G : Graph) (u v label iss t : String) (x y : String) :
    lookupA (recordEdge G u v label iss t).edges (x, y) =
      if u = x ∧ v = y then some (stepEdge (lookupA G.edges (u, v)) label iss t)
      else lookupA G.edges (x, y) := by
  unfold recordEdge
  cases hG : lookupA G.edges (u, v) with
  | none =>
      simp only
      rw [lookupA_append]
      by_cases hw : u = x ∧ v = y
      · obtain ⟨h1, h2⟩ := hw
        subst h1; subst h2
        rw [hG]
        simp [lookupA]
      · rw [if_neg hw]
        have hne : (x, y) ≠ (u, v) := by
          intro h
          exact hw ⟨(congrArg Prod.fst h).symm, (congrArg Prod.snd h).symm⟩
        cases hG' : lookupA G.edges (x, y) with
        | none => simp [lookupA, hne, hG']
        | some d => simp [lookupA, hne, hG']
  | some d =>
      simp only
      rw [lookupA_updateA]
      by_cases hw : u = x ∧ v = y
      · obtain ⟨h1, h2⟩ := hw
        subst h1; subst h2
        rw [if_pos rfl, if_pos ⟨rfl, rfl⟩, hG]
        rfl
      · rw [if_neg hw]
        have hne : ¬ (x, y) = (u, v) := by
          intro h
          exact hw ⟨(congrArg Prod.fst h).symm, (congrArg Prod.snd h).symm⟩
        rw [if_neg hne]

theorem addEdAuRow_nodes (G : Graph) (ed : String) (aus : List String) (iss t : String) :
    (addEdAuRow G ed aus iss t).nodes = G.nodes := by
  induction aus generalizing G with
  | nil => rfl
  | cons au aus ih => rw [addEdAuRow, ih, recordEdge_nodes]

theorem addEdAuRow_lookup (G : Graph) (ed : String) (aus : List String) (iss t : String)
    (x y : String) :
    lookupA (addEdAuRow G ed aus iss t).edges (x, y) =
      if ed = x then
        applyN (lookupA G.edges (x, y)) "editor_to_author" iss t (countS aus y)
      else lookupA G.edges (x, y) := by
  induction aus generalizing G with
  | nil =>
      rw [addEdAuRow, countS]
      by_cases hx : ed = x
      · rw [if_pos hx]; rfl
      · rw [if_neg hx]
  | cons au aus ih =>
      rw [addEdAuRow, ih, countS]
      by_cases hx : ed = x
      · subst hx
        simp only [eq_self_iff_true, if_true]
        rw [recordEdge_lookup]
        simp only [eq_self_iff_true, true_and]
        by_cases hy : au = y
        · subst hy
          simp only [eq_self_iff_true, if_true]
          rw [show some (stepEdge (lookupA G.edges (ed, au)) "editor_to_author" iss t) =
              applyN (lookupA G.edges (ed, au)) "editor_to_author" iss t 1 from rfl,
            applyN_applyN]
        · simp only [if_neg hy]
          rw [Nat.zero_add]
      · simp only [if_neg hx]
        rw [recordEdge_lookup, if_neg (fun h => hx h.1)]

theorem addEdAuEdges_nodes (G : Graph) (eds aus : List String) (iss t : String) :
    (addEdAuEdges G eds aus iss t).nodes = G.nodes := by
  induction eds generalizing G with
  | nil => rfl
  | cons ed eds ih => rw [addEdAuEdges, ih, addEdAuRow_nodes]

theorem addEdAuEdges_lookup (G : Graph) (eds aus : List String) (iss t : String)
    (x y : String) :
    lookupA (addEdAuEdges G eds aus iss t).edges (x, y) =
      applyN (lookupA G.edges (x, y)) "editor_to_author" iss t
        (countS eds x * countS aus y) := by
  induction eds generalizing G with
  | nil => rw [addEdAuEdges, countS, Nat.zero_mul]; rfl
  | cons ed eds ih =>
      rw [addEdAuEdges, ih, addEdAuRow_lookup, countS]
      by_cases hx : ed = x
      · rw [if_pos hx, applyN_applyN, if_pos hx]
        congr 1
        ring
      · rw [if_neg hx, if_neg hx, Nat.zero_add]

/-- Co-author hits of a pair list on the ordered key `(x, y)`. -/
def coHits : List (String × String) → String → String → Nat
  | [], _, _ => 0
  | (a, b) :: rest, x, y =>
      (if a = x ∧ b = y then 1 else 0) + (if b = x ∧ a = y then 1 else 0) +
        coHits rest x y

theorem addCoEdges_nodes (G : Graph) (ps : List (String × String)) (iss t : String) :
    (addCoEdges G ps iss t).nodes = G.nodes := by
  induction ps generalizing G with
  | nil => rfl
  | cons p ps ih =>
      rcases p with ⟨a, b⟩
      rw [addCoEdges, ih, recordEdge_nodes, recordEdge_nodes]

theorem recordEdge2_lookup (G : Graph) (a b iss t x y : String) :
    lookupA (recordEdge (recordEdge G a b "co_author" iss t) b a "co_author" iss t).edges
        (x, y) =
      applyN (lookupA G.edges (x, y)) "co_author" iss t
        ((if a = x ∧ b = y then 1 else 0) + (if b = x ∧ a = y then 1 else 0)) := by
  rw [recordEdge_lookup]
  by_cases h2 : b = x ∧ a = y
  · obtain ⟨hbx, hay⟩ := h2
    subst hbx; subst hay
    simp only [eq_self_iff_true, and_self, if_true]
    rw [recordEdge_lookup]
    by_cases h1 : a = b ∧ b = a
    · obtain ⟨hab, _⟩ := h1
      subst hab
      simp only [eq_self_iff_true, and_self, if_true]
      rfl
    · simp only [if_neg h1]
      rfl
  · rw [if_neg h2, recordEdge_lookup]
    by_cases h1 : a = x ∧ b = y
    · obtain ⟨hax, hby⟩ := h1
      subst hax; subst hby
      simp only [eq_self_iff_true, and_self, if_true]
      rw [if_neg h2]
      rfl
    · rw [if_neg h1, if_neg h1, if_neg h2]
      rfl

theorem addCoEdges_lookup (G : Graph) (ps : List (String × String)) (iss t : String)
    (x y : String) :
    lookupA (addCoEdges G ps iss t).edges (x, y) =
      applyN (lookupA G.edges (x, y)) "co_author" iss t (coHits ps x y) := by
  induction ps generalizing G with
  | nil => rw [addCoEdges, coHits]; rfl
  | cons p ps ih =>
      rcases p with ⟨a, b⟩
      rw [addCoEdges, ih, coHits, recordEdge2_lookup, applyN_applyN]



theorem coHits_append (l1 l2 : List (String × String)) (x y : String) :
    coHits (l1 ++ l2) x y = coHits l1 x y + coHits l2 x y := by
  induction l1 with
  | nil => rw [List.nil_append, coHits, Nat.zero_add]
  | cons p l1 ih =>
      rcases p with ⟨a, b⟩
      rw [List.cons_append, coHits, coHits, ih]
      omega

theorem coHits_map (a : String) (rest : List String) (x y : String) :
    coHits (rest.map (fun b => (a, b))) x y =
      (if a = x then countS rest y else 0) + (if a = y then countS rest x else 0) := by
  induction rest with
  | nil =>
      rw [List.map_nil, coHits, countS, countS]
      split_ifs <;> rfl
  | cons b rest ih =>
      rw [List.map_cons, coHits, ih, countS, countS]
      by_cases hax : a = x <;> by_cases hay : a = y <;> by_cases hbx : b = x <;>
        by_cases hby : b = y <;> by_cases hxy : x = y <;>
          first
            | (simp [hax, hay, hbx, hby, hxy] <;> omega)
            | (simp [hax, hay, hbx, hby, hxy, Ne.symm hxy] <;> omega)

theorem coHits_coPairs (as : List String) (x y : String) :
    coHits (coPairs as) x y = coPairCount as x y := by
  induction as with
  | nil => rfl
  | cons a rest ih =>
      rw [coPairs, coHits_append, coHits_map, coPairCount, ih]

/-- Closed-form effect of one record on a node-table entry. -/
def applyNodeC (q : String) (ne na : Nat) (o : Option NodeData) : Option NodeData :=
  match o with
  | some nd => some ⟨nd.name, nd.editor_count + ne, nd.author_count + na⟩
  | none => if ne + na = 0 then none else some ⟨q, ne, na⟩

theorem registerEditor_lookup (G : Graph) (p q : String) :
    lookupA (registerEditor G p).nodes q =
      if p = q then
        some (match lookupA G.nodes p with
          | some nd => ⟨nd.name, nd.editor_count + 1, nd.author_count⟩
          | none => ⟨p, 1, 0⟩)
      else lookupA G.nodes q := by
  by_cases hpq : p = q
  · subst hpq
    rw [if_pos rfl]
    cases hG : lookupA G.nodes p with
    | some nd =>
        simp only [registerEditor, ensureNode, hG, Option.isSome_some, if_true]
        rw [lookupA_updateA, if_pos rfl, hG]
        rfl
    | none =>
        simp only [registerEditor, ensureNode, hG, Option.isSome_none, Bool.false_eq_true,
          if_false]
        rw [lookupA_updateA, if_pos rfl, lookupA_append, hG]
        simp [lookupA]
  · rw [if_neg hpq]
    have hqp : ¬ q = p := fun h => hpq h.symm
    cases hG : lookupA G.nodes p with
    | some nd =>
        simp only [registerEditor, ensureNode, hG, Option.isSome_some, if_true]
        rw [lookupA_updateA, if_neg hqp]
    | none =>
        simp only [registerEditor, ensureNode, hG, Option.isSome_none, Bool.false_eq_true,
          if_false]
        rw [lookupA_updateA, if_neg hqp, lookupA_append]
        cases hG' : lookupA G.nodes q with
        | none => simp [lookupA, hqp]
        | some nd => rfl

theorem registerAuthor_lookup (G : Graph) (p q : String) :
    lookupA (registerAuthor G p).nodes q =
      if p = q then
        some (match lookupA G.nodes p with
          | some nd => ⟨nd.name, nd.editor_count, nd.author_count + 1⟩
          | none => ⟨p, 0, 1⟩)
      else lookupA G.nodes q := by
  by_cases hpq : p = q
  · subst hpq
    rw [if_pos rfl]
    cases hG : lookupA G.nodes p with
    | some nd =>
        simp only [registerAuthor, ensureNode, hG, Option.isSome_some, if_true]
        rw [lookupA_updateA, if_pos rfl, hG]
        rfl
    | none =>
        simp only [registerAuthor, ensureNode, hG, Option.isSome_none, Bool.false_eq_true,
          if_false]
        rw [lookupA_updateA, if_pos rfl, lookupA_append, hG]
        simp [lookupA]
  · rw [if_neg hpq]
    have hqp : ¬ q = p := fun h => hpq h.symm
    cases hG : lookupA G.nodes p with
    | some nd =>
        simp only [registerAuthor, ensureNode, hG, Option.isSome_some, if_true]
        rw [lookupA_updateA, if_neg hqp]
    | none =>
        simp only [registerAuthor, ensureNode, hG, Option.isSome_none, Bool.false_eq_true,
          if_false]
        rw [lookupA_updateA, if_neg hqp, lookupA_append]
        cases hG' : lookupA G.nodes q with
        | none => simp [lookupA, hqp]
        | some nd => rfl

theorem registerEditor_edges (G : Graph) (p : String) :
    (registerEditor G p).edges = G.edges := by
  simp only [registerEditor, ensureNode]
  cases (lookupA G.nodes p).isSome <;> simp

theorem registerAuthor_edges (G : Graph) (p : String) :
    (registerAuthor G p).edges = G.edges := by
  simp only [registerAuthor, ensureNode]
  cases (lookupA G.nodes p).isSome <;> simp

theorem registerEditors_edges (G : Graph) (es : List String) :
    (registerEditors G es).edges = G.edges := by
  induction es generalizing G with
  | nil => rfl
  | cons e es ih => rw [registerEditors, ih, registerEditor_edges]

theorem registerAuthors_edges (G : Graph) (as : List String) :
    (registerAuthors G as).edges = G.edges := by
  induction as generalizing G with
  | nil => rfl
  | cons a as ih => rw [registerAuthors, ih, registerAuthor_edges]

theorem registerEditors_lookup (G : Graph) (es : List String) (q : String) :
    lookupA (registerEditors G es).nodes q =
      applyNodeC q (countS es q) 0 (lookupA G.nodes q) := by
  induction es generalizing G with
  | nil =>
      rw [registerEditors, countS]
      cases lookupA G.nodes q <;> rfl
  | cons e es ih =>
      rw [registerEditors, ih, registerEditor_lookup, countS]
      by_cases he : e = q
      · subst he
        rw [if_pos rfl, if_pos rfl]
        cases hG : lookupA G.nodes e with
        | some nd =>
            simp only [applyNodeC, Option.some.injEq, NodeData.mk.injEq, true_and, and_true] <;>
              first | trivial | omega
        | none =>
            simp only [applyNodeC]
            rw [if_neg (by omega)]
            all_goals simp only [Option.some.injEq, NodeData.mk.injEq, true_and, and_true]
            all_goals first | trivial | omega
      · rw [if_neg he, if_neg he, Nat.zero_add]

theorem registerAuthors_lookup (G : Graph) (as : List String) (q : String) :
    lookupA (registerAuthors G as).nodes q =
      applyNodeC q 0 (countS as q) (lookupA G.nodes q) := by
  induction as generalizing G with
  | nil =>
      rw [registerAuthors, countS]
      cases lookupA G.nodes q <;> rfl
  | cons a as ih =>
      rw [registerAuthors, ih, registerAuthor_lookup, countS]
      by_cases ha : a = q
      · subst ha
        rw [if_pos rfl, if_pos rfl]
        cases hG : lookupA G.nodes a with
        | some nd =>
            simp only [applyNodeC, Option.some.injEq, NodeData.mk.injEq, true_and, and_true] <;>
              first | trivial | omega
        | none =>
            simp only [applyNodeC]
            rw [if_neg (by omega)]
            all_goals simp only [Option.some.injEq, NodeData.mk.injEq, true_and, and_true]
            all_goals first | trivial | omega
      · rw [if_neg ha, if_neg ha, Nat.zero_add]

theorem applyNodeC_applyNodeC (q : String) (ne na me ma : Nat) (o : Option NodeData) :
    applyNodeC q me ma (applyNodeC q ne na o) = applyNodeC q (ne + me) (na + ma) o := by
  cases o with
  | some nd =>
      simp only [applyNodeC, Option.some.injEq, NodeData.mk.injEq, true_and, and_true] <;>
        first | trivial | omega
  | none =>
      by_cases h1 : ne + na = 0
      · have hne : ne = 0 := by omega
        have hna : na = 0 := by omega
        subst hne; subst hna
        show applyNodeC q me ma (applyNodeC q 0 0 none) = applyNodeC q (0 + me) (0 + ma) none
        rw [Nat.zero_add, Nat.zero_add]
        rfl
      · show applyNodeC q me ma (applyNodeC q ne na none) =
          applyNodeC q (ne + me) (na + ma) none
        simp only [applyNodeC]
        rw [if_neg h1]
        have h2 : ¬ (ne + me + (na + ma) = 0) := by omega
        rw [if_neg h2]
        all_goals simp only [Option.some.injEq, NodeData.mk.injEq, true_and, and_true]
        all_goals first | trivial | omega



theorem processRecord_nodes_lookup (G : Graph) (r : Record) (q : String) :
    lookupA (processRecord G r).nodes q =
      applyNodeC q (editorOcc r q) (authorOcc r q) (lookupA G.nodes q) := by
  unfold processRecord
  rw [addCoEdges_nodes, addEdAuEdges_nodes, registerAuthors_lookup, registerEditors_lookup,
    applyNodeC_applyNodeC, Nat.add_zero, Nat.zero_add]
  rfl

theorem processRecord_edges_lookup (G : Graph) (r : Record) (x y : String) :
    lookupA (processRecord G r).edges (x, y) =
      applyN (applyN (lookupA G.edges (x, y)) "editor_to_author" (issueId r) r.title
        (edauOcc r x y)) "co_author" (issueId r) r.title (coOcc r x y) := by
  unfold processRecord
  rw [addCoEdges_lookup, addEdAuEdges_lookup, registerAuthors_edges, registerEditors_edges,
    coHits_coPairs]
  rfl

/-! ### Characterization of the built graph -/

theorem foldl_nodes_lookup (arts : List Record) (G : Graph) (q : String) :
    lookupA (List.foldl processRecord G arts).nodes q =
      applyNodeC q (edCount arts q) (auCount arts q) (lookupA G.nodes q) := by
  induction arts generalizing G with
  | nil =>
      rw [List.foldl_nil, edCount, auCount]
      cases lookupA G.nodes q with
      | some nd => rfl
      | none => rfl
  | cons r rest ih =>
      rw [List.foldl_cons, ih, processRecord_nodes_lookup, applyNodeC_applyNodeC,
        edCount, auCount]

/-- Node-table characterization: a person's entry exists iff they appear in
some record, and then carries exactly their appearance counts. -/
theorem build_node_char (arts : List Record) (q : String) :
    lookupA (build_graph arts).nodes q =
      if edCount arts q + auCount arts q = 0 then none
      else some ⟨q, edCount arts q, auCount arts q⟩ := by
  rw [build_graph, foldl_nodes_lookup]
  rfl

/-- Per-key edge effect of one record. -/
def applyRecordE (r : Record) (x y : String) (o : Option EdgeData) : Option EdgeData :=
  applyN (applyN o "editor_to_author" (issueId r) r.title (edauOcc r x y))
    "co_author" (issueId r) r.title (coOcc r x y)

theorem foldl_edges_lookup (arts : List Record) (G : Graph) (x y : String) :
    lookupA (List.foldl processRecord G arts).edges (x, y) =
      arts.foldl (fun o r => applyRecordE r x y o) (lookupA G.edges (x, y)) := by
  induction arts generalizing G with
  | nil => rw [List.foldl_nil, List.foldl_nil]
  | cons r rest ih =>
      rw [List.foldl_cons, List.foldl_cons, ih, processRecord_edges_lookup]
      rfl

/-- The four relationship strings an edge can carry. -/
def relUniverse : List String :=
  ["editor_to_author", "co_author", "editor_to_author,co_author",
   "co_author,editor_to_author"]

/-- Abstraction of an edge-table entry: `ne` editor-to-author contributions
and `nc` co-author contributions so far. -/
def edgeInvP (ne nc : Nat) (o : Option EdgeData) : Prop :=
  match o with
  | none => ne = 0 ∧ nc = 0
  | some d =>
      0 < ne + nc ∧
      d.issues.length = ne + nc ∧
      d.titles.length = ne + nc ∧
      d.relationship ∈ relUniverse ∧
      (strContains d.relationship "editor_to_author" = true ↔ 0 < ne) ∧
      (strContains d.relationship "co_author" = true ↔ 0 < nc)

theorem stepEdge_ed (o : Option EdgeData) (iss t : String) (ne nc : Nat)
    (h : edgeInvP ne nc o) :
    edgeInvP (ne + 1) nc (some (stepEdge o "editor_to_author" iss t)) := by
  cases o with
  | none =>
      obtain ⟨hne, hnc⟩ := h
      subst hne; subst hnc
      exact ⟨by omega, rfl, rfl,
        (by decide : ("editor_to_author" : String) ∈ relUniverse),
        ⟨fun _ => by omega, fun _ => rfl⟩,
        ⟨fun hc => absurd hc
            (by decide : ¬ strContains "editor_to_author" "co_author" = true),
          fun hc => absurd hc (by omega)⟩⟩
  | some d =>
      obtain ⟨hpos, hiss, htit, hmem, hed, hco⟩ := h
      simp only [relUniverse, List.mem_cons, List.not_mem_nil, or_false] at hmem
      rcases hmem with hrel | hrel | hrel | hrel
      · -- relationship = "editor_to_author": label already present, nc must be 0
        have hnc : nc = 0 := by
          rcases Nat.eq_zero_or_pos nc with h0 | h0
          · exact h0
          · rw [hrel] at hco
            exact absurd (hco.mpr h0) (by decide)
        subst hnc
        simp only [stepEdge, hrel]
        rw [if_pos (by decide : strContains "editor_to_author" "editor_to_author" = true)]
        refine ⟨by omega, ?_, ?_,
          (by decide : ("editor_to_author" : String) ∈ relUniverse),
          ⟨fun _ => by omega, fun _ => rfl⟩,
          ⟨fun hc => absurd hc
              (by decide : ¬ strContains "editor_to_author" "co_author" = true),
            fun hc => absurd hc (by omega)⟩⟩
        · simp only [List.length_append, hiss, List.length_singleton] <;> omega
        · simp only [List.length_append, htit, List.length_singleton] <;> omega
      · -- relationship = "co_author": label appended, nc positive stays
        have hnc : 0 < nc := by
          rw [hrel] at hco
          exact hco.mp (by decide)
        simp only [stepEdge, hrel]
        rw [if_neg (by decide : ¬ strContains "co_author" "editor_to_author" = true)]
        refine ⟨by omega, ?_, ?_,
          (by decide : ("co_author" ++ "," ++ "editor_to_author" : String) ∈ relUniverse),
          ⟨fun _ => by omega, fun _ => rfl⟩,
          ⟨fun _ => hnc, fun _ => rfl⟩⟩
        · simp only [List.length_append, hiss, List.length_singleton] <;> omega
        · simp only [List.length_append, htit, List.length_singleton] <;> omega
      · -- relationship = "editor_to_author,co_author"
        have hnc : 0 < nc := by
          rw [hrel] at hco
          exact hco.mp (by decide)
        simp only [stepEdge, hrel]
        rw [if_pos (by decide :
          strContains "editor_to_author,co_author" "editor_to_author" = true)]
        refine ⟨by omega, ?_, ?_,
          (by decide : ("editor_to_author,co_author" : String) ∈ relUniverse),
          ⟨fun _ => by omega, fun _ => rfl⟩,
          ⟨fun _ => hnc, fun _ => rfl⟩⟩
        · simp only [List.length_append, hiss, List.length_singleton] <;> omega
        · simp only [List.length_append, htit, List.length_singleton] <;> omega
      · -- relationship = "co_author,editor_to_author"
        have hnc : 0 < nc := by
          rw [hrel] at hco
          exact hco.mp (by decide)
        simp only [stepEdge, hrel]
        rw [if_pos (by decide :
          strContains "co_author,editor_to_author" "editor_to_author" = true)]
        refine ⟨by omega, ?_, ?_,
          (by decide : ("co_author,editor_to_author" : String) ∈ relUniverse),
          ⟨fun _ => by omega, fun _ => rfl⟩,
          ⟨fun _ => hnc, fun _ => rfl⟩⟩
        · simp only [List.length_append, hiss, List.length_singleton] <;> omega
        · simp only [List.length_append, htit, List.length_singleton] <;> omega

theorem stepEdge_co (o : Option EdgeData) (iss t : String) (ne nc : Nat)
    (h : edgeInvP ne nc o) :
    edgeInvP ne (nc + 1) (some (stepEdge o "co_author" iss t)) := by
  cases o with
  | none =>
      obtain ⟨hne, hnc⟩ := h
      subst hne; subst hnc
      exact ⟨by omega, rfl, rfl,
        (by decide : ("co_author" : String) ∈ relUniverse),
        ⟨fun hc => absurd hc
            (by decide : ¬ strContains "co_author" "editor_to_author" = true),
          fun hc => absurd hc (by omega)⟩,
        ⟨fun _ => by omega, fun _ => rfl⟩⟩
  | some d =>
      obtain ⟨hpos, hiss, htit, hmem, hed, hco⟩ := h
      simp only [relUniverse, List.mem_cons, List.not_mem_nil, or_false] at hmem
      rcases hmem with hrel | hrel | hrel | hrel
      · -- relationship = "editor_to_author": co_author appended, ne positive stays
        have hne : 0 < ne := by
          rw [hrel] at hed
          exact hed.mp (by decide)
        simp only [stepEdge, hrel]
        rw [if_neg (by decide : ¬ strContains "editor_to_author" "co_author" = true)]
        refine ⟨by omega, ?_, ?_,
          (by decide : ("editor_to_author" ++ "," ++ "co_author" : String) ∈ relUniverse),
          ⟨fun _ => hne, fun _ => rfl⟩,
          ⟨fun _ => by omega, fun _ => rfl⟩⟩
        · simp only [List.length_append, hiss, List.length_singleton] <;> omega
        · simp only [List.length_append, htit, List.length_singleton] <;> omega
      · -- relationship = "co_author": label already present, ne must be 0
        have hne : ne = 0 := by
          rcases Nat.eq_zero_or_pos ne with h0 | h0
          · exact h0
          · rw [hrel] at hed
            exact absurd (hed.mpr h0) (by decide)
        subst hne
        simp only [stepEdge, hrel]
        rw [if_pos (by decide : strContains "co_author" "co_author" = true)]
        refine ⟨by omega, ?_, ?_,
          (by decide : ("co_author" : String) ∈ relUniverse),
          ⟨fun hc => absurd hc
              (by decide : ¬ strContains "co_author" "editor_to_author" = true),
            fun hc => absurd hc (by omega)⟩,
          ⟨fun _ => by omega, fun _ => rfl⟩⟩
        · simp only [List.length_append, hiss, List.length_singleton] <;> omega
        · simp only [List.length_append, htit, List.length_singleton] <;> omega
      · -- relationship = "editor_to_author,co_author"
        have hne : 0 < ne := by
          rw [hrel] at hed
          exact hed.mp (by decide)
        simp only [stepEdge, hrel]
        rw [if_pos (by decide :
          strContains "editor_to_author,co_author" "co_author" = true)]
        refine ⟨by omega, ?_, ?_,
          (by decide : ("editor_to_author,co_author" : String) ∈ relUniverse),
          ⟨fun _ => hne, fun _ => rfl⟩,
          ⟨fun _ => by omega, fun _ => rfl⟩⟩
        · simp only [List.length_append, hiss, List.length_singleton] <;> omega
        · simp only [List.length_append, htit, List.length_singleton] <;> omega
      · -- relationship = "co_author,editor_to_author"
        have hne : 0 < ne := by
          rw [hrel] at hed
          exact hed.mp (by decide)
        simp only [stepEdge, hrel]
        rw [if_pos (by decide :
          strContains "co_author,editor_to_author" "co_author" = true)]
        refine ⟨by omega, ?_, ?_,
          (by decide : ("co_author,editor_to_author" : String) ∈ relUniverse),
          ⟨fun _ => hne, fun _ => rfl⟩,
          ⟨fun _ => by omega, fun _ => rfl⟩⟩
        · simp only [List.length_append, hiss, List.length_singleton] <;> omega
        · simp only [List.length_append, htit, List.length_singleton] <;> omega

theorem applyN_ed (o : Option EdgeData) (iss t : String) (ne nc k : Nat)
    (h : edgeInvP ne nc o) :
    edgeInvP (ne + k) nc (applyN o "editor_to_author" iss t k) := by
  induction k with
  | zero => exact h
  | succ k ih => exact stepEdge_ed _ iss t _ nc ih

theorem applyN_co (o : Option EdgeData) (iss t : String) (ne nc k : Nat)
    (h : edgeInvP ne nc o) :
    edgeInvP ne (nc + k) (applyN o "co_author" iss t k) := by
  induction k with
  | zero => exact h
  | succ k ih => exact stepEdge_co _ iss t ne _ ih

theorem applyRecordE_inv (r : Record) (x y : String) (o : Option EdgeData) (ne nc : Nat)
    (h : edgeInvP ne nc o) :
    edgeInvP (ne + edauOcc r x y) (nc + coOcc r x y) (applyRecordE r x y o) := by
  exact applyN_co _ _ _ _ _ _ (applyN_ed _ _ _ _ _ _ h)

theorem foldl_applyRecordE_inv (arts : List Record) (x y : String) (o : Option EdgeData)
    (ne nc : Nat) (h : edgeInvP ne nc o) :
    edgeInvP (ne + edauTotal arts x y) (nc + coTotal arts x y)
      (arts.foldl (fun o r => applyRecordE r x y o) o) := by
  induction arts generalizing o ne nc with
  | nil =>
      rw [List.foldl_nil, edauTotal, coTotal]
      simpa using h
  | cons r rest ih =>
      rw [List.foldl_cons, edauTotal, coTotal]
      have h1 := applyRecordE_inv r x y o ne nc h
      have h2 := ih (applyRecordE r x y o) _ _ h1
      have e1 : ne + edauOcc r x y + edauTotal rest x y =
          ne + (edauOcc r x y + edauTotal rest x y) := by omega
      have e2 : nc + coOcc r x y + coTotal rest x y =
          nc + (coOcc r x y + coTotal rest x y) := by omega
      rw [e1, e2] at h2
      exact h2

/-- Edge-table characterization: every entry of the built graph satisfies the
contribution-count abstraction. -/
theorem build_edge_char (arts : List Record) (x y : String) :
    edgeInvP (edauTotal arts x y) (coTotal arts x y)
      (lookupA (build_graph arts).edges (x, y)) := by
  rw [build_graph, foldl_edges_lookup]
  have h0 : edgeInvP 0 0 (lookupA (Graph.mk [] []).edges (x, y)) := ⟨rfl, rfl⟩
  have h := foldl_applyRecordE_inv arts x y _ 0 0 h0
  simpa using h



/-! ### Uniqueness of dictionary keys in the built graph -/

theorem recordEdge_keys_nodup (G : Graph) (u v label iss t : String)
    (h : (G.edges.map Prod.fst).Nodup) :
    ((recordEdge G u v label iss t).edges.map Prod.fst).Nodup := by
  unfold recordEdge
  cases hG : lookupA G.edges (u, v) with
  | none =>
      simp only [List.map_append, List.map_cons, List.map_nil]
      rw [List.nodup_append]
      refine ⟨h, List.nodup_singleton _, ?_⟩
      intro a ha hb
      simp only [List.mem_singleton] at hb
      subst hb
      exact ((lookupA_eq_none_iff G.edges (u, v)).mp hG) ha
  | some d =>
      simp only
      rw [updateA_keys]
      exact h

theorem addEdAuRow_keys_nodup (G : Graph) (ed : String) (aus : List String)
    (iss t : String) (h : (G.edges.map Prod.fst).Nodup) :
    ((addEdAuRow G ed aus iss t).edges.map Prod.fst).Nodup := by
  induction aus generalizing G with
  | nil => exact h
  | cons au aus ih => exact ih _ (recordEdge_keys_nodup _ _ _ _ _ _ h)

theorem addEdAuEdges_keys_nodup (G : Graph) (eds aus : List String)
    (iss t : String) (h : (G.edges.map Prod.fst).Nodup) :
    ((addEdAuEdges G eds aus iss t).edges.map Prod.fst).Nodup := by
  induction eds generalizing G with
  | nil => exact h
  | cons ed eds ih => exact ih _ (addEdAuRow_keys_nodup _ _ _ _ _ h)

theorem addCoEdges_keys_nodup (G : Graph) (ps : List (String × String))
    (iss t : String) (h : (G.edges.map Prod.fst).Nodup) :
    ((addCoEdges G ps iss t).edges.map Prod.fst).Nodup := by
  induction ps generalizing G with
  | nil => exact h
  | cons p ps ih =>
      rcases p with ⟨a, b⟩
      exact ih _ (recordEdge_keys_nodup _ _ _ _ _ _ (recordEdge_keys_nodup _ _ _ _ _ _ h))

theorem processRecord_keys_nodup (G : Graph) (r : Record)
    (h : (G.edges.map Prod.fst).Nodup) :
    ((processRecord G r).edges.map Prod.fst).Nodup := by
  unfold processRecord
  refine addCoEdges_keys_nodup _ _ _ _ (addEdAuEdges_keys_nodup _ _ _ _ _ ?_)
  rw [registerAuthors_edges, registerEditors_edges]
  exact h

/-- The edge dictionary of a built graph has no duplicate ordered-pair keys. -/
theorem build_edges_keys_nodup (arts : List Record) :
    ((build_graph arts).edges.map Prod.fst).Nodup := by
  rw [build_graph]
  have h : ∀ (G : Graph), (G.edges.map Prod.fst).Nodup →
      ((arts.foldl processRecord G).edges.map Prod.fst).Nodup := by
    induction arts with
    | nil => exact fun G h => h
    | cons r rest ih =>
        intro G h
        rw [List.foldl_cons]
        exact ih _ (processRecord_keys_nodup G r h)
  exact h ⟨[], []⟩ (by simp)

/-! ### Detection: specification predicates and characterization -/

/-- Boolean membership in a string list. -/
def memS : List String → String → Bool
  | [], _ => false
  | a :: rest, p => a = p || memS rest p

/-- Does this edge carry the `editor_to_author` label. -/
def hasEdLabel (d : EdgeData) : Bool := strContains d.relationship "editor_to_author"

/-- Does this edge carry the `co_author` label. -/
def hasCoLabel (d : EdgeData) : Bool := strContains d.relationship "co_author"

/-- Some edge in the list makes person `p` an editor at venue `iss`. -/
def editorAt : List ((String × String) × EdgeData) → String → String → Bool
  | [], _, _ => false
  | ((u, _), d) :: rest, p, iss =>
      (u = p && hasEdLabel d && memS d.issues iss) || editorAt rest p iss

/-- Some edge in the list makes person `p` an author at venue `iss`. -/
def authorAt : List ((String × String) × EdgeData) → String → String → Bool
  | [], _, _ => false
  | ((_, v), d) :: rest, p, iss =>
      (v = p && hasEdLabel d && memS d.issues iss) || authorAt rest p iss

/-- Two-level lookup into the roles dictionary. -/
def lookup2 (m : List (String × List (String × RolePair))) (p iss : String) :
    Option RolePair :=
  match lookupA m p with
  | none => none
  | some inner => lookupA inner iss

/-- Merge newly observed editor/author flags into a roles entry. -/
def mergeRoles (o : Option RolePair) (e a : Bool) : Option RolePair :=
  match o with
  | some rp => some ⟨rp.editor || e, rp.author || a⟩
  | none => if e || a then some ⟨e, a⟩ else none

theorem mergeRoles_false_false (o : Option RolePair) : mergeRoles o false false = o := by
  cases o with
  | some rp => simp [mergeRoles]
  | none => rfl

theorem mergeRoles_mergeRoles (o : Option RolePair) (e1 a1 e2 a2 : Bool) :
    mergeRoles (mergeRoles o e1 a1) e2 a2 = mergeRoles o (e1 || e2) (a1 || a2) := by
  cases o with
  | some rp => simp [mergeRoles, Bool.or_assoc]
  | none => cases e1 <;> cases a1 <;> cases e2 <;> cases a2 <;> rfl

/-- Effect of adding one role to an existing roles entry. -/
def roleStep (o : Option RolePair) (isEd : Bool) : RolePair :=
  match o with
  | none => if isEd then ⟨true, false⟩ else ⟨false, true⟩
  | some rp => if isEd then { rp with editor := true } else { rp with author := true }

theorem lookupA_addRoleInner (l : List (String × RolePair)) (i : String) (isEd : Bool)
    (iss : String) :
    lookupA (addRoleInner l i isEd) iss =
      if i = iss then some (roleStep (lookupA l i) isEd) else lookupA l iss := by
  unfold addRoleInner
  cases hl : lookupA l i with
  | none =>
      simp only
      rw [lookupA_append]
      by_cases hii : i = iss
      · subst hii
        rw [hl]
        simp [lookupA, roleStep]
      · rw [if_neg hii]
        have hsym : ¬ iss = i := fun h => hii h.symm
        cases hl' : lookupA l iss with
        | none => simp [lookupA, hsym, hl']
        | some rp => rfl
  | some rp =>
      simp only
      rw [lookupA_updateA]
      by_cases hii : i = iss
      · subst hii
        rw [if_pos rfl, if_pos rfl, hl]
        rfl
      · rw [if_neg (fun h : iss = i => hii h.symm), if_neg hii]

theorem lookup2_addRole (m : List (String × List (String × RolePair)))
    (q i : String) (isEd : Bool) (p iss : String) :
    lookup2 (addRole m q i isEd) p iss =
      if q = p ∧ i = iss then some (roleStep (lookup2 m q i) isEd)
      else lookup2 m p iss := by
  unfold addRole
  cases hm : lookupA m q with
  | none =>
      simp only
      by_cases hqp : q = p
      · subst hqp
        have hL : lookupA (m ++ [(q, addRoleInner [] i isEd)]) q =
            some (addRoleInner [] i isEd) := by
          rw [lookupA_append, hm]
          simp [lookupA]
        simp only [lookup2, hL, hm]
        rw [lookupA_addRoleInner]
        by_cases hii : i = iss
        · rw [if_pos hii, if_pos (⟨by trivial, hii⟩ : _ ∧ i = iss)]
          rfl
        · rw [if_neg hii, if_neg (fun h => hii h.2)]
          rfl
      · have hL : lookupA (m ++ [(q, addRoleInner [] i isEd)]) p = lookupA m p := by
          rw [lookupA_append]
          have hs : ¬ p = q := fun h => hqp h.symm
          cases hm' : lookupA m p with
          | none => simp [lookupA, hs]
          | some inner => rfl
        simp only [lookup2, hL]
        rw [if_neg (fun h => hqp h.1)]
  | some inner =>
      simp only
      by_cases hqp : q = p
      · subst hqp
        have hL : lookupA (updateA m q (fun inner => addRoleInner inner i isEd)) q =
            some (addRoleInner inner i isEd) := by
          rw [lookupA_updateA, if_pos rfl, hm]
          rfl
        simp only [lookup2, hL, hm]
        rw [lookupA_addRoleInner]
        by_cases hii : i = iss
        · rw [if_pos hii, if_pos (⟨by trivial, hii⟩ : _ ∧ i = iss)]
        · rw [if_neg hii, if_neg (fun h => hii h.2)]
      · have hL : lookupA (updateA m q (fun inner => addRoleInner inner i isEd)) p =
            lookupA m p := by
          rw [lookupA_updateA, if_neg (fun h : p = q => hqp h.symm)]
        simp only [lookup2, hL]
        rw [if_neg (fun h => hqp h.1)]

theorem roleStep_merge_true (o : Option RolePair) :
    some (roleStep o true) = mergeRoles o true false := by
  cases o with
  | none => rfl
  | some rp => simp [roleStep, mergeRoles]

theorem roleStep_merge_false (o : Option RolePair) :
    some (roleStep o false) = mergeRoles o false true := by
  cases o with
  | none => rfl
  | some rp => simp [roleStep, mergeRoles]

theorem lookup2_addRole_merge (m : List (String × List (String × RolePair)))
    (q i : String) (isEd : Bool) (p iss : String) :
    lookup2 (addRole m q i isEd) p iss =
      mergeRoles (lookup2 m p iss) (decide (q = p) && decide (i = iss) && isEd)
        (decide (q = p) && decide (i = iss) && !isEd) := by
  rw [lookup2_addRole]
  by_cases hq : q = p
  · by_cases hi : i = iss
    · subst hq; subst hi
      rw [if_pos ⟨rfl, rfl⟩]
      cases isEd
      · rw [roleStep_merge_false]
        simp
      · rw [roleStep_merge_true]
        simp
    · rw [if_neg (fun h => hi h.2)]
      have hd : decide (i = iss) = false := by simp [hi]
      rw [hd]
      simp [mergeRoles_false_false]
  · rw [if_neg (fun h => hq h.1)]
    have hd : decide (q = p) = false := by simp [hq]
    rw [hd]
    simp [mergeRoles_false_false]

theorem lookup2_rolesOfIssues (m : List (String × List (String × RolePair)))
    (u v : String) (il : List String) (p iss : String) :
    lookup2 (rolesOfIssues m u v il) p iss =
      mergeRoles (lookup2 m p iss) (decide (u = p) && memS il iss)
        (decide (v = p) && memS il iss) := by
  induction il generalizing m with
  | nil =>
      simp only [rolesOfIssues, memS, Bool.and_false]
      rw [mergeRoles_false_false]
  | cons i rest ih =>
      rw [rolesOfIssues, ih, lookup2_addRole_merge, lookup2_addRole_merge,
        mergeRoles_mergeRoles, mergeRoles_mergeRoles, memS]
      congr 1
      · cases hd1 : decide (u = p) <;> cases hd2 : decide (v = p) <;>
          cases hd3 : decide (i = iss) <;> cases hm1 : memS rest iss <;> rfl
      · cases hd1 : decide (u = p) <;> cases hd2 : decide (v = p) <;>
          cases hd3 : decide (i = iss) <;> cases hm1 : memS rest iss <;> rfl

theorem lookup2_rolesOfEdges (es : List ((String × String) × EdgeData))
    (m : List (String × List (String × RolePair))) (p iss : String) :
    lookup2 (rolesOfEdges m es) p iss =
      mergeRoles (lookup2 m p iss) (editorAt es p iss) (authorAt es p iss) := by
  induction es generalizing m with
  | nil =>
      simp only [rolesOfEdges, editorAt, authorAt]
      rw [mergeRoles_false_false]
  | cons hd rest ih =>
      rcases hd with ⟨⟨u, v⟩, d⟩
      rw [rolesOfEdges]
      by_cases hed : strContains d.relationship "editor_to_author" = true
      · rw [if_pos hed, ih, lookup2_rolesOfIssues, mergeRoles_mergeRoles, editorAt, authorAt]
        have hl : hasEdLabel d = true := hed
        rw [hl]
        congr 1
        · cases hd1 : decide (u = p) <;> cases hm1 : memS d.issues iss <;>
            cases he1 : editorAt rest p iss <;> rfl
        · cases hd2 : decide (v = p) <;> cases hm1 : memS d.issues iss <;>
            cases ha1 : authorAt rest p iss <;> rfl
      · rw [if_neg hed, ih, editorAt, authorAt]
        have hl : hasEdLabel d = false := by
          unfold hasEdLabel
          cases hb : strContains d.relationship "editor_to_author"
          · rfl
          · exact absurd hb hed
        rw [hl]
        simp

/-- Well-formedness of the roles dictionary: unique person keys and unique
venue keys inside every person's entry. -/
def rolesWF (m : List (String × List (String × RolePair))) : Prop :=
  (m.map Prod.fst).Nodup ∧ ∀ pr ∈ m, ((pr.2.map Prod.fst).Nodup)

theorem addRoleInner_keys_nodup (l : List (String × RolePair)) (i : String) (isEd : Bool)
    (h : (l.map Prod.fst).Nodup) :
    ((addRoleInner l i isEd).map Prod.fst).Nodup := by
  unfold addRoleInner
  cases hl : lookupA l i with
  | none =>
      simp only [List.map_append, List.map_cons, List.map_nil]
      rw [List.nodup_append]
      refine ⟨h, List.nodup_singleton _, ?_⟩
      intro a ha hb
      simp only [List.mem_singleton] at hb
      subst hb
      exact ((lookupA_eq_none_iff l a).mp hl) ha
  | some rp =>
      simp only
      rw [updateA_keys]
      exact h

theorem addRole_WF (m : List (String × List (String × RolePair))) (q i : String)
    (isEd : Bool) (h : rolesWF m) : rolesWF (addRole m q i isEd) := by
  obtain ⟨hout, hin⟩ := h
  unfold addRole
  cases hm : lookupA m q with
  | none =>
      constructor
      · simp only [List.map_append, List.map_cons, List.map_nil]
        rw [List.nodup_append]
        refine ⟨hout, List.nodup_singleton _, ?_⟩
        intro a ha hb
        simp only [List.mem_singleton] at hb
        subst hb
        exact ((lookupA_eq_none_iff m a).mp hm) ha
      · intro pr hpr
        rcases List.mem_append.mp hpr with hpr | hpr
        · exact hin pr hpr
        · simp only [List.mem_singleton] at hpr
          subst hpr
          exact addRoleInner_keys_nodup [] i isEd (by simp)
  | some inner =>
      constructor
      · simp only
        rw [updateA_keys]
        exact hout
      · intro pr hpr
        simp only [updateA, List.mem_map] at hpr
        obtain ⟨kv, hkv, hpr⟩ := hpr
        by_cases hk : kv.1 = q
        · rw [if_pos hk] at hpr
          subst hpr
          exact addRoleInner_keys_nodup _ i isEd (hin kv hkv)
        · rw [if_neg hk] at hpr
          subst hpr
          exact hin kv hkv

theorem rolesOfIssues_WF (m : List (String × List (String × RolePair)))
    (u v : String) (il : List String) (h : rolesWF m) :
    rolesWF (rolesOfIssues m u v il) := by
  induction il generalizing m with
  | nil => exact h
  | cons i rest ih => exact ih _ (addRole_WF _ _ _ _ (addRole_WF _ _ _ _ h))

theorem rolesOfEdges_WF (es : List ((String × String) × EdgeData))
    (m : List (String × List (String × RolePair))) (h : rolesWF m) :
    rolesWF (rolesOfEdges m es) := by
  induction es generalizing m with
  | nil => exact h
  | cons hd rest ih =>
      rcases hd with ⟨⟨u, v⟩, d⟩
      rw [rolesOfEdges]
      by_cases hed : strContains d.relationship "editor_to_author" = true
      · rw [if_pos hed]
        exact ih _ (rolesOfIssues_WF _ _ _ _ h)
      · rw [if_neg hed]
        exact ih _ h

theorem person_issue_roles_WF (G : Graph) : rolesWF (person_issue_roles G) := by
  exact rolesOfEdges_WF _ _ ⟨by simp, by intro pr hpr; cases hpr⟩

/-- Occurrence count in a self-overlap report list. -/
def countSO : List SelfOverlap → SelfOverlap → Nat
  | [], _ => 0
  | s :: rest, x => (if s = x then 1 else 0) + countSO rest x

theorem countSO_append (l1 l2 : List SelfOverlap) (x : SelfOverlap) :
    countSO (l1 ++ l2) x = countSO l1 x + countSO l2 x := by
  induction l1 with
  | nil => rw [List.nil_append, countSO, Nat.zero_add]
  | cons s l1 ih =>
      rw [List.cons_append, countSO, countSO, ih]
      omega

/-- Contribution of one roles entry to the self-overlap report. -/
def soContrib : Option RolePair → Nat
  | some rp => if rp.editor && rp.author then 1 else 0
  | none => 0

theorem countSO_selfOfInner (inner : List (String × RolePair)) (acc : List SelfOverlap)
    (p xp xi : String) (h : (inner.map Prod.fst).Nodup) :
    countSO (selfOfInner acc p inner) ⟨xp, xi⟩ =
      countSO acc ⟨xp, xi⟩ + (if p = xp then soContrib (lookupA inner xi) else 0) := by
  induction inner generalizing acc with
  | nil => simp [selfOfInner, lookupA, soContrib]
  | cons hd rest ih =>
      rcases hd with ⟨i, rp⟩
      simp only [List.map_cons, List.nodup_cons] at h
      obtain ⟨hni, hrest⟩ := h
      rw [selfOfInner, ih _ hrest, lookupA]
      by_cases hf : (rp.editor && rp.author) = true
      · rw [if_pos hf]
        by_cases hpx : p = xp
        · subst hpx
          by_cases hix : xi = i
          · subst hix
            have hnone : lookupA rest xi = none := (lookupA_eq_none_iff rest xi).mpr hni
            rw [hnone, if_pos rfl, countSO_append, countSO, countSO]
            simp [soContrib, hf, SelfOverlap.mk.injEq]
          · rw [if_neg hix, countSO_append, countSO, countSO]
            have hne : ¬ (⟨p, i⟩ : SelfOverlap) = ⟨p, xi⟩ := by
              intro hcon
              exact hix ((SelfOverlap.mk.injEq _ _ _ _).mp hcon).2.symm
            rw [if_neg hne]
            all_goals omega
        · rw [if_neg hpx, if_neg hpx, countSO_append, countSO, countSO]
          have hne : ¬ (⟨p, i⟩ : SelfOverlap) = ⟨xp, xi⟩ := by
            intro hcon
            exact hpx ((SelfOverlap.mk.injEq _ _ _ _).mp hcon).1
          rw [if_neg hne]
          all_goals omega
      · rw [if_neg hf]
        by_cases hpx : p = xp
        · subst hpx
          by_cases hix : xi = i
          · subst hix
            have hnone : lookupA rest xi = none := (lookupA_eq_none_iff rest xi).mpr hni
            rw [hnone, if_pos rfl]
            simp [soContrib, hf]
          · rw [if_neg hix]
        · rw [if_neg hpx, if_neg hpx]

theorem countSO_selfOfRoles (m : List (String × List (String × RolePair)))
    (acc : List SelfOverlap) (xp xi : String) (h : rolesWF m) :
    countSO (selfOfRoles acc m) ⟨xp, xi⟩ =
      countSO acc ⟨xp, xi⟩ + soContrib (lookup2 m xp xi) := by
  induction m generalizing acc with
  | nil => simp [selfOfRoles, lookup2, lookupA, soContrib]
  | cons hd rest ih =>
      rcases hd with ⟨q, inner⟩
      obtain ⟨hout, hin⟩ := h
      simp only [List.map_cons, List.nodup_cons] at hout
      obtain ⟨hnq, hrest⟩ := hout
      have hWFrest : rolesWF rest := ⟨hrest, fun pr hpr => hin pr (List.mem_cons_of_mem _ hpr)⟩
      have hinner : (inner.map Prod.fst).Nodup := hin (q, inner) (List.mem_cons_self _ _)
      rw [selfOfRoles, ih _ hWFrest, countSO_selfOfInner _ _ _ _ _ hinner]
      simp only [lookup2, lookupA]
      by_cases hqx : xp = q
      · subst hqx
        rw [if_pos rfl, if_pos rfl]
        have hnone : lookupA rest xp = none := (lookupA_eq_none_iff rest xp).mpr hnq
        rw [hnone]
        simp [soContrib]
      · rw [if_neg (fun h => hqx h.symm), if_neg hqx]
        cases lookupA rest xp <;> omega

/-- Counting form of the self-overlap detector: a `(person, venue)` report
appears exactly once when the roles map shows both roles, otherwise never. -/
theorem countSO_self_overlaps (G : Graph) (xp xi : String) :
    countSO (self_overlaps G) ⟨xp, xi⟩ =
      if editorAt G.edges xp xi && authorAt G.edges xp xi then 1 else 0 := by
  rw [self_overlaps, countSO_selfOfRoles _ _ _ _ (person_issue_roles_WF G), countSO,
    person_issue_roles, lookup2_rolesOfEdges]
  have hbase : lookup2 [] xp xi = none := rfl
  rw [hbase]
  cases he : editorAt G.edges xp xi <;> cases ha : authorAt G.edges xp xi <;>
    simp [mergeRoles, soContrib]

/-! ### Characterization of `ed_au_map` and the reciprocal pass -/

/-- Merge a venue-list contribution into a map entry. -/
def mergeOpt (o : Option (List String)) (c : List String) : Option (List String) :=
  match o with
  | some l => some (l ++ c)
  | none => if c = [] then none else some c

/-- The venues an edge list contributes to an ordered pair in `ed_au_map`. -/
def edContrib (es : List ((String × String) × EdgeData)) (w : String × String) :
    List String :=
  match lookupA es w with
  | some d => if hasEdLabel d then d.issues else []
  | none => []

theorem mergeOpt_nil (o : Option (List String)) : mergeOpt o [] = o := by
  cases o with
  | some l => simp [mergeOpt]
  | none => rfl

theorem edAuIssues_lookup (m : List ((String × String) × List String)) (u v : String)
    (il : List String) (w : String × String) :
    lookupA (edAuIssues m u v il) w =
      if (u, v) = w then mergeOpt (lookupA m (u, v)) il else lookupA m w := by
  induction il generalizing m with
  | nil =>
      rw [edAuIssues]
      by_cases hw : (u, v) = w
      · rw [if_pos hw, mergeOpt_nil, hw]
      · rw [if_neg hw]
  | cons i rest ih =>
      rw [edAuIssues, ih]
      cases hm : lookupA m (u, v) with
      | none =>
          simp only [hm]
          have hL : lookupA (m ++ [((u, v), [i])]) (u, v) = some [i] := by
            rw [lookupA_append, hm]
            simp [lookupA]
          by_cases hw : (u, v) = w
          · rw [if_pos hw, if_pos hw, hL]
            simp [mergeOpt]
          · rw [if_neg hw, if_neg hw, lookupA_append]
            cases hm' : lookupA m w with
            | none =>
                have hne : ¬ w = (u, v) := fun h => hw h.symm
                simp [lookupA, hne, hm']
            | some l => rfl
      | some l =>
          simp only [hm]
          have hL : lookupA (updateA m (u, v) (fun l => l ++ [i])) (u, v) =
              some (l ++ [i]) := by
            rw [lookupA_updateA, if_pos rfl, hm]
            rfl
          by_cases hw : (u, v) = w
          · rw [if_pos hw, if_pos hw, hL]
            simp [mergeOpt, List.append_assoc]
          · rw [if_neg hw, if_neg hw, lookupA_updateA,
              if_neg (fun h : w = (u, v) => hw h.symm)]

theorem edAuOfEdges_lookup (es : List ((String × String) × EdgeData))
    (m : List ((String × String) × List String)) (w : String × String)
    (hnd : (es.map Prod.fst).Nodup) :
    lookupA (edAuOfEdges m es) w = mergeOpt (lookupA m w) (edContrib es w) := by
  induction es generalizing m with
  | nil =>
      rw [edAuOfEdges]
      have : edContrib [] w = [] := rfl
      rw [this, mergeOpt_nil]
  | cons hd rest ih =>
      rcases hd with ⟨⟨u, v⟩, d⟩
      simp only [List.map_cons, List.nodup_cons] at hnd
      obtain ⟨hkey, hrest⟩ := hnd
      rw [edAuOfEdges]
      have hcontrib : edContrib (((u, v), d) :: rest) w =
          if w = (u, v) then (if hasEdLabel d then d.issues else []) else edContrib rest w := by
        unfold edContrib
        rw [lookupA]
        by_cases hw : w = (u, v)
        · rw [if_pos hw, if_pos hw]
        · rw [if_neg hw, if_neg hw]
      rw [hcontrib]
      by_cases hed : strContains d.relationship "editor_to_author" = true
      · rw [if_pos hed, ih _ hrest, edAuIssues_lookup]
        have hl : hasEdLabel d = true := hed
        by_cases hw : w = (u, v)
        · subst hw
          rw [if_pos rfl, if_pos rfl, hl]
          simp only [if_true]
          have hnone : edContrib rest (u, v) = [] := by
            unfold edContrib
            rw [(lookupA_eq_none_iff rest (u, v)).mpr hkey]
          rw [hnone, mergeOpt_nil]
        · rw [if_neg (fun h : (u, v) = w => hw h.symm), if_neg hw]
      · rw [if_neg hed, ih _ hrest]
        have hl : hasEdLabel d = false := by
          unfold hasEdLabel
          cases hb : strContains d.relationship "editor_to_author"
          · rfl
          · exact absurd hb hed
        by_cases hw : w = (u, v)
        · rw [if_pos hw, hl]
          simp only [Bool.false_eq_true, if_false]
          have hnone : edContrib rest w = [] := by
            unfold edContrib
            rw [hw, (lookupA_eq_none_iff rest (u, v)).mpr hkey]
          rw [hnone]
        · rw [if_neg hw]

/-- `ed_au_map` entry characterization for graphs with unique edge keys. -/
theorem ed_au_map_lookup (G : Graph) (hnd : (G.edges.map Prod.fst).Nodup)
    (w : String × String) :
    lookupA (ed_au_map G) w =
      if edContrib G.edges w = [] then none else some (edContrib G.edges w) := by
  rw [ed_au_map, edAuOfEdges_lookup _ _ _ hnd]
  rfl

theorem edAuIssues_keys_sub (m : List ((String × String) × List String)) (u v : String)
    (il : List String) (w : String × String)
    (h : lookupA (edAuIssues m u v il) w ≠ none) :
    lookupA m w ≠ none ∨ w = (u, v) := by
  rw [edAuIssues_lookup] at h
  by_cases hw : (u, v) = w
  · right; exact hw.symm
  · left
    rw [if_neg hw] at h
    exact h

theorem edAuIssues_keys_nodup (m : List ((String × String) × List String)) (u v : String)
    (il : List String) (h : (m.map Prod.fst).Nodup) :
    ((edAuIssues m u v il).map Prod.fst).Nodup := by
  induction il generalizing m with
  | nil => exact h
  | cons i rest ih =>
      rw [edAuIssues]
      refine ih _ ?_
      cases hm : lookupA m (u, v) with
      | none =>
          simp only [List.map_append, List.map_cons, List.map_nil]
          rw [List.nodup_append]
          refine ⟨h, List.nodup_singleton _, ?_⟩
          intro a ha hb
          simp only [List.mem_singleton] at hb
          subst hb
          exact ((lookupA_eq_none_iff m (u, v)).mp hm) ha
      | some l =>
          simp only
          rw [updateA_keys]
          exact h

theorem edAuOfEdges_keys_nodup (es : List ((String × String) × EdgeData))
    (m : List ((String × String) × List String)) (h : (m.map Prod.fst).Nodup) :
    ((edAuOfEdges m es).map Prod.fst).Nodup := by
  induction es generalizing m with
  | nil => exact h
  | cons hd rest ih =>
      rcases hd with ⟨⟨u, v⟩, d⟩
      rw [edAuOfEdges]
      by_cases hed : strContains d.relationship "editor_to_author" = true
      · rw [if_pos hed]
        exact ih _ (edAuIssues_keys_nodup _ _ _ _ h)
      · rw [if_neg hed]
        exact ih _ h

theorem ed_au_map_keys_nodup (G : Graph) : ((ed_au_map G).map Prod.fst).Nodup := by
  exact edAuOfEdges_keys_nodup _ _ (by simp)

/-- Occurrence count of an ordered person pair in a reciprocal report list. -/
def countRAB : List Recip → String → String → Nat
  | [], _, _ => 0
  | r :: rest, A, B => (if r.personA = A ∧ r.personB = B then 1 else 0) + countRAB rest A B

/-- Occurrence count of a full reciprocal record. -/
def countRF : List Recip → Recip → Nat
  | [], _ => 0
  | r :: rest, x => (if r = x then 1 else 0) + countRF rest x

theorem countRAB_append (l1 l2 : List Recip) (A B : String) :
    countRAB (l1 ++ l2) A B = countRAB l1 A B + countRAB l2 A B := by
  induction l1 with
  | nil => rw [List.nil_append, countRAB, Nat.zero_add]
  | cons r l1 ih =>
      rw [List.cons_append, countRAB, countRAB, ih]
      omega

theorem countRF_append (l1 l2 : List Recip) (x : Recip) :
    countRF (l1 ++ l2) x = countRF l1 x + countRF l2 x := by
  induction l1 with
  | nil => rw [List.nil_append, countRF, Nat.zero_add]
  | cons r l1 ih =>
      rw [List.cons_append, countRF, countRF, ih]
      omega

theorem countRF_pos_mem (l : List Recip) (x : Recip) (h : 0 < countRF l x) : x ∈ l := by
  induction l with
  | nil => simp [countRF] at h
  | cons r rest ih =>
      rw [countRF] at h
      by_cases hr : r = x
      · subst hr
        exact List.mem_cons_self _ _
      · rw [if_neg hr] at h
        exact List.mem_cons_of_mem _ (ih (by omega))

/-- Did both map lookups succeed (one reciprocal record emitted). -/
def pairEmit (o1 o2 : Option (List String)) : Nat :=
  match o1, o2 with
  | some _, some _ => 1
  | _, _ => 0

theorem countRAB_recipOfMap (l : List ((String × String) × List String))
    (acc : List Recip) (m2 : List ((String × String) × List String)) (A B : String)
    (hnd : (l.map Prod.fst).Nodup) :
    countRAB (recipOfMap acc m2 l) A B =
      countRAB acc A B + pairEmit (lookupA l (A, B)) (lookupA m2 (B, A)) := by
  induction l generalizing acc with
  | nil =>
      rw [recipOfMap]
      have : lookupA ([] : List ((String × String) × List String)) (A, B) = none := rfl
      rw [this]
      cases lookupA m2 (B, A) <;> simp [pairEmit]
  | cons hd rest ih =>
      rcases hd with ⟨⟨u, v⟩, luv⟩
      simp only [List.map_cons, List.nodup_cons] at hnd
      obtain ⟨hkey, hrest⟩ := hnd
      rw [recipOfMap, ih _ hrest, lookupA]
      by_cases hw : (A, B) = (u, v)
      · have hu : A = u := congrArg Prod.fst hw
        have hv : B = v := congrArg Prod.snd hw
        subst hu; subst hv
        rw [if_pos rfl]
        have hnone : lookupA rest (A, B) = none := (lookupA_eq_none_iff rest (A, B)).mpr hkey
        rw [hnone]
        cases hm2 : lookupA m2 (B, A) with
        | some lvu =>
            simp only [hm2]
            rw [countRAB_append, countRAB, countRAB]
            simp [pairEmit]
        | none =>
            simp only [hm2]
            simp [pairEmit]
      · rw [if_neg (fun h : (A, B) = (u, v) => hw h)]
        cases hm2 : lookupA m2 (v, u) with
        | some lvu =>
            simp only [hm2]
            rw [countRAB_append, countRAB, countRAB]
            have hne : ¬ ((⟨u, v, luv, lvu⟩ : Recip).personA = A ∧
                (⟨u, v, luv, lvu⟩ : Recip).personB = B) := by
              intro hc
              exact hw (by simp only [Prod.mk.injEq]; exact ⟨hc.1.symm, hc.2.symm⟩)
            rw [if_neg hne]
            omega
        | none =>
            simp only [hm2]

theorem countRF_recipOfMap (l : List ((String × String) × List String))
    (acc : List Recip) (m2 : List ((String × String) × List String))
    (xa xb : String) (x1 x2 : List String)
    (hnd : (l.map Prod.fst).Nodup) :
    countRF (recipOfMap acc m2 l) ⟨xa, xb, x1, x2⟩ =
      countRF acc ⟨xa, xb, x1, x2⟩ +
        (if lookupA l (xa, xb) = some x1 ∧ lookupA m2 (xb, xa) = some x2 then 1 else 0) := by
  induction l generalizing acc with
  | nil =>
      rw [recipOfMap]
      have h0 : lookupA ([] : List ((String × String) × List String)) (xa, xb) = none := rfl
      rw [h0]
      simp
  | cons hd rest ih =>
      rcases hd with ⟨⟨u, v⟩, luv⟩
      simp only [List.map_cons, List.nodup_cons] at hnd
      obtain ⟨hkey, hrest⟩ := hnd
      rw [recipOfMap, ih _ hrest, lookupA]
      by_cases hw : (xa, xb) = (u, v)
      · have hu : xa = u := congrArg Prod.fst hw
        have hv : xb = v := congrArg Prod.snd hw
        subst hu; subst hv
        rw [if_pos rfl]
        have hnone : lookupA rest (xa, xb) = none :=
          (lookupA_eq_none_iff rest (xa, xb)).mpr hkey
        rw [hnone]
        have hfalse : ¬ ((none : Option (List String)) = some x1 ∧
            lookupA m2 (xb, xa) = some x2) := by
          intro hc
          cases hc.1
        rw [if_neg hfalse]
        cases hm2 : lookupA m2 (xb, xa) with
        | some lvu =>
            rw [countRF_append, countRF, countRF]
            by_cases hx : luv = x1 ∧ lvu = x2
            · obtain ⟨h1, h2⟩ := hx
              rw [if_pos (⟨by rw [h1], by rw [h2]⟩ :
                (some luv : Option (List String)) = some x1 ∧
                  (some lvu : Option (List String)) = some x2)]
              rw [if_pos (by rw [h1, h2] :
                (⟨xa, xb, luv, lvu⟩ : Recip) = ⟨xa, xb, x1, x2⟩)]
              all_goals omega
            · have hne1 : ¬ (⟨xa, xb, luv, lvu⟩ : Recip) = ⟨xa, xb, x1, x2⟩ := by
                intro hc
                injection hc with e1 e2 e3 e4
                exact hx ⟨e3, e4⟩
              rw [if_neg hne1]
              have hne2 : ¬ ((some luv : Option (List String)) = some x1 ∧
                  (some lvu : Option (List String)) = some x2) := by
                intro hc
                obtain ⟨hc1, hc2⟩ := hc
                injection hc1 with hc1
                injection hc2 with hc2
                exact hx ⟨hc1, hc2⟩
              rw [if_neg hne2]
              all_goals omega
        | none =>
            have hne2 : ¬ ((some luv : Option (List String)) = some x1 ∧
                (none : Option (List String)) = some x2) := by
              intro hc
              cases hc.2
            rw [if_neg hne2]
            all_goals omega
      · rw [if_neg (fun h : (xa, xb) = (u, v) => hw h)]
        cases hm2 : lookupA m2 (v, u) with
        | some lvu =>
            rw [countRF_append, countRF, countRF]
            have hne : ¬ (⟨u, v, luv, lvu⟩ : Recip) = ⟨xa, xb, x1, x2⟩ := by
              intro hc
              injection hc with e1 e2 e3 e4
              exact hw (by rw [e1, e2])
            rw [if_neg hne]
            omega
        | none => rfl

/-! ### Characterization of the scorer -/

/-- Effect of adding `k` points to an optional score entry. -/
def applyScore (k : Nat) (o : Option Nat) : Option Nat :=
  match o with
  | some n => some (n + k)
  | none => if k = 0 then none else some k

theorem applyScore_zero (o : Option Nat) : applyScore 0 o = o := by
  cases o <;> rfl

theorem applyScore_comp (k1 k2 : Nat) (o : Option Nat) :
    applyScore k2 (applyScore k1 o) = applyScore (k1 + k2) o := by
  cases o with
  | some n =>
      show some (n + k1 + k2) = some (n + (k1 + k2))
      rw [Nat.add_assoc]
  | none =>
      by_cases h1 : k1 = 0
      · subst h1
        show applyScore k2 (if (0 : Nat) = 0 then none else some 0) =
          applyScore (0 + k2) none
        rw [if_pos rfl, Nat.zero_add]
      · show applyScore k2 (if k1 = 0 then none else some k1) = applyScore (k1 + k2) none
        rw [if_neg h1]
        show some (k1 + k2) = if k1 + k2 = 0 then none else some (k1 + k2)
        rw [if_neg (by omega)]

theorem lookupA_bump (m : List (String × Nat)) (q : String) (k : Nat) (p : String)
    (hk : 0 < k) :
    lookupA (bump m q k) p = applyScore (if q = p then k else 0) (lookupA m p) := by
  unfold bump
  cases hm : lookupA m q with
  | none =>
      simp only
      rw [lookupA_append]
      by_cases hqp : q = p
      · subst hqp
        rw [hm, if_pos rfl]
        show (if q = q then some k else lookupA ([] : List (String × Nat)) q) =
          applyScore k none
        rw [if_pos rfl]
        show some k = if k = 0 then none else some k
        rw [if_neg (by omega)]
      · rw [if_neg hqp, applyScore_zero]
        cases hm' : lookupA m p with
        | none =>
            have hs : ¬ p = q := fun h => hqp h.symm
            simp [lookupA, hs]
        | some n => rfl
  | some n =>
      simp only
      rw [lookupA_updateA]
      by_cases hqp : q = p
      · subst hqp
        rw [if_pos rfl, if_pos rfl, hm]
        rfl
      · rw [if_neg (fun h : p = q => hqp h.symm), if_neg hqp, applyScore_zero]

/-- Number of self-overlap entries implicating a person. -/
def soPersonCount : List SelfOverlap → String → Nat
  | [], _ => 0
  | s :: rest, p => (if s.person = p then 1 else 0) + soPersonCount rest p

/-- Number of reciprocal entries with the person in the `personA` slot. -/
def recipACount : List Recip → String → Nat
  | [], _ => 0
  | r :: rest, p => (if r.personA = p then 1 else 0) + recipACount rest p

/-- Number of reciprocal entries with the person in the `personB` slot. -/
def recipBCount : List Recip → String → Nat
  | [], _ => 0
  | r :: rest, p => (if r.personB = p then 1 else 0) + recipBCount rest p

theorem scoreSelf_lookup (l : List SelfOverlap) (m : List (String × Nat)) (p : String) :
    lookupA (scoreSelf m l) p = applyScore (3 * soPersonCount l p) (lookupA m p) := by
  induction l generalizing m with
  | nil =>
      rw [scoreSelf, soPersonCount, Nat.mul_zero, applyScore_zero]
  | cons s rest ih =>
      rw [scoreSelf, ih, lookupA_bump _ _ _ _ (by omega), applyScore_comp, soPersonCount]
      congr 1
      by_cases hs : s.person = p
      · rw [if_pos hs, if_pos hs]
        omega
      · rw [if_neg hs, if_neg hs]
        omega

theorem scoreRecip_lookup (l : List Recip) (m : List (String × Nat)) (p : String) :
    lookupA (scoreRecip m l) p =
      applyScore (2 * recipACount l p + 2 * recipBCount l p) (lookupA m p) := by
  induction l generalizing m with
  | nil =>
      rw [scoreRecip, recipACount, recipBCount, Nat.mul_zero, Nat.add_zero, applyScore_zero]
  | cons r rest ih =>
      rw [scoreRecip, ih, lookupA_bump _ _ _ _ (by omega),
        lookupA_bump _ _ _ _ (by omega), applyScore_comp, applyScore_comp,
        recipACount, recipBCount]
      congr 1
      by_cases ha : r.personA = p <;> by_cases hb : r.personB = p <;>
        simp [ha, hb] <;> omega

/-- Full characterization of `score_suspicion`: a person's entry exists iff
they are implicated, and then equals 3 per self-overlap plus 2 per
reciprocal slot. -/
theorem score_char (s : Suspicions) (p : String) :
    lookupA (score_suspicion s) p =
      if 3 * soPersonCount s.self_overlap p + 2 * recipACount s.reciprocal p +
          2 * recipBCount s.reciprocal p = 0 then none
      else some (3 * soPersonCount s.self_overlap p + 2 * recipACount s.reciprocal p +
          2 * recipBCount s.reciprocal p) := by
  rw [score_suspicion, scoreRecip_lookup, scoreSelf_lookup]
  have h0 : lookupA ([] : List (String × Nat)) p = none := rfl
  rw [h0, applyScore_comp]
  simp only [applyScore]
  by_cases h : 3 * soPersonCount s.self_overlap p +
      (2 * recipACount s.reciprocal p + 2 * recipBCount s.reciprocal p) = 0
  · rw [if_pos h, if_pos (by omega)]
  · rw [if_neg h, if_neg (by omega)]
    congr 1
    omega

/-! ### Cluster analysis lemmas -/

/-- The string order used by the cluster sort, as a relation. -/
def strLe (a b : String) : Prop := strLeB a b = true

theorem charLeB_total (a b : List Char) : charLeB a b = true ∨ charLeB b a = true := by
  induction a generalizing b with
  | nil => exact Or.inl rfl
  | cons c cs ih =>
      cases b with
      | nil => exact Or.inr rfl
      | cons d ds =>
          rw [charLeB, charLeB]
          by_cases h : c.val.toNat = d.val.toNat
          · rw [if_pos h, if_pos (h.symm)]
            exact ih ds
          · rw [if_neg h, if_neg (fun h' => h h'.symm)]
            rcases Nat.lt_or_ge c.val.toNat d.val.toNat with h' | h'
            · exact Or.inl (by simp [h'])
            · exact Or.inr (by simp; omega)

theorem charLeB_trans (a b c : List Char) (h1 : charLeB a b = true)
    (h2 : charLeB b c = true) : charLeB a c = true := by
  induction a generalizing b c with
  | nil => rfl
  | cons x xs ih =>
      cases b with
      | nil => exact absurd h1 (by rw [charLeB]; simp)
      | cons y ys =>
          cases c with
          | nil => exact absurd h2 (by rw [charLeB]; simp)
          | cons z zs =>
              rw [charLeB] at h1 h2 ⊢
              by_cases hxy : x.val.toNat = y.val.toNat
              · rw [if_pos hxy] at h1
                by_cases hyz : y.val.toNat = z.val.toNat
                · rw [if_pos hyz] at h2
                  rw [if_pos (hxy.trans hyz)]
                  exact ih ys zs h1 h2
                · rw [if_neg hyz] at h2
                  simp only [decide_eq_true_eq] at h2
                  rw [if_neg (by omega)]
                  simp only [decide_eq_true_eq]
                  omega
              · rw [if_neg hxy] at h1
                simp only [decide_eq_true_eq] at h1
                by_cases hyz : y.val.toNat = z.val.toNat
                · rw [if_neg (by omega)]
                  simp only [decide_eq_true_eq]
                  omega
                · rw [if_neg hyz] at h2
                  simp only [decide_eq_true_eq] at h2
                  rw [if_neg (by omega)]
                  simp only [decide_eq_true_eq]
                  omega

theorem strLe_total (a b : String) : strLe a b ∨ strLe b a := charLeB_total a.data b.data

theorem strLe_trans (a b c : String) (h1 : strLe a b) (h2 : strLe b c) : strLe a c :=
  charLeB_trans a.data b.data c.data h1 h2

theorem mem_insSorted (x y : String) (l : List String) :
    y ∈ insSorted x l ↔ y = x ∨ y ∈ l := by
  induction l with
  | nil => simp [insSorted]
  | cons z zs ih =>
      rw [insSorted]
      by_cases h : strLeB x z = true
      · rw [if_pos h]
        simp
      · rw [if_neg h]
        simp only [List.mem_cons, ih]
        tauto

theorem sorted_insSorted (x : String) (l : List String)
    (h : List.Sorted strLe l) : List.Sorted strLe (insSorted x l) := by
  induction l with
  | nil => simp [insSorted, List.Sorted]
  | cons y ys ih =>
      rw [insSorted]
      rw [List.sorted_cons] at h
      obtain ⟨hy, hys⟩ := h
      by_cases hxy : strLeB x y = true
      · rw [if_pos hxy]
        rw [List.sorted_cons]
        refine ⟨?_, ?_⟩
        · intro b hb
          rcases List.mem_cons.mp hb with hb | hb
          · subst hb
            exact hxy
          · exact strLe_trans x y b hxy (hy b hb)
        · rw [List.sorted_cons]
          exact ⟨hy, hys⟩
      · rw [if_neg hxy]
        rw [List.sorted_cons]
        refine ⟨?_, ih hys⟩
        intro b hb
        rcases (mem_insSorted x b ys).mp hb with hb | hb
        · subst hb
          rcases strLe_total b y with h' | h'
          · exact absurd h' hxy
          · exact h'
        · exact hy b hb

theorem sortNames_sorted (l : List String) : List.Sorted strLe (sortNames l) := by
  induction l with
  | nil => simp [sortNames, List.Sorted]
  | cons x xs ih =>
      show List.Sorted strLe (insSorted x (sortNames xs))
      exact sorted_insSorted x (sortNames xs) ih

theorem mem_sortNames (l : List String) (x : String) : x ∈ sortNames l ↔ x ∈ l := by
  induction l with
  | nil => simp [sortNames]
  | cons y ys ih =>
      show x ∈ insSorted y (sortNames ys) ↔ _
      rw [mem_insSorted, ih]
      simp [List.mem_cons]

theorem mem_expandComp (es : List (String × String)) (ns comp : List String) (x : String)
    (h : x ∈ expandComp es ns comp) : x ∈ comp ∨ x ∈ ns := by
  rw [expandComp] at h
  rcases List.mem_append.mp h with h | h
  · exact Or.inl h
  · exact Or.inr (List.mem_of_mem_filter h)

theorem mem_iterExpand (es : List (String × String)) (ns : List String) (f : Nat)
    (comp : List String) (x : String) (h : x ∈ iterExpand es ns f comp) :
    x ∈ comp ∨ x ∈ ns := by
  induction f generalizing comp with
  | zero => exact Or.inl h
  | succ f ih =>
      rw [iterExpand] at h
      rcases ih _ h with h' | h'
      · exact mem_expandComp es ns comp x h'
      · exact Or.inr h'

theorem mem_componentOf (es : List (String × String)) (ns : List String) (n x : String)
    (h : x ∈ componentOf es ns n) : x = n ∨ x ∈ ns := by
  rcases mem_iterExpand es ns ns.length [n] x h with h' | h'
  · simp only [List.mem_singleton] at h'
    exact Or.inl h'
  · exact Or.inr h'

theorem componentsOf_mem (es : List (String × String)) (ns : List String)
    (c : List String) (h : c ∈ componentsOf es ns) :
    ∃ n, n ∈ ns ∧ c = componentOf es ns n := by
  rw [componentsOf] at h
  suffices hgen : ∀ (l : List String) (st : List (List String) × List String),
      c ∈ (l.foldl (fun st n => if n ∈ st.2 then st
        else (st.1 ++ [componentOf es ns n], st.2 ++ componentOf es ns n)) st).1 →
      c ∈ st.1 ∨ ∃ n, n ∈ l ∧ c = componentOf es ns n by
    rcases hgen ns ([], []) h with h' | h'
    · cases h'
    · exact h'
  intro l
  induction l with
  | nil => exact fun st h => Or.inl h
  | cons n rest ih =>
      intro st h
      rw [List.foldl_cons] at h
      by_cases hn : n ∈ st.2
      · rw [if_pos hn] at h
        rcases ih st h with h' | ⟨n', hn', hc⟩
        · exact Or.inl h'
        · exact Or.inr ⟨n', List.mem_cons_of_mem _ hn', hc⟩
      · rw [if_neg hn] at h
        rcases ih _ h with h' | ⟨n', hn', hc⟩
        · rcases List.mem_append.mp h' with h'' | h''
          · exact Or.inl h''
          · simp only [List.mem_singleton] at h''
            exact Or.inr ⟨n, List.mem_cons_self _ _, h''⟩
        · exact Or.inr ⟨n', List.mem_cons_of_mem _ hn', hc⟩

theorem mem_coNodes (es : List (String × String)) (x : String) (h : x ∈ coNodes es) :
    ∃ e, e ∈ es ∧ (x = e.1 ∨ x = e.2) := by
  induction es with
  | nil => cases h
  | cons e rest ih =>
      rcases e with ⟨u, v⟩
      simp only [coNodes] at h
      by_cases hv : v ∈ coNodes rest
      · rw [if_pos hv] at h
        by_cases hu : u ∈ coNodes rest
        · rw [if_pos hu] at h
          obtain ⟨e, he, hx⟩ := ih h
          exact ⟨e, List.mem_cons_of_mem _ he, hx⟩
        · rw [if_neg hu] at h
          rcases List.mem_cons.mp h with h' | h'
          · exact ⟨(u, v), List.mem_cons_self _ _, Or.inl h'⟩
          · obtain ⟨e, he, hx⟩ := ih h'
            exact ⟨e, List.mem_cons_of_mem _ he, hx⟩
      · rw [if_neg hv] at h
        by_cases hu : u ∈ v :: coNodes rest
        · rw [if_pos hu] at h
          rcases List.mem_cons.mp h with h' | h'
          · exact ⟨(u, v), List.mem_cons_self _ _, Or.inr h'⟩
          · obtain ⟨e, he, hx⟩ := ih h'
            exact ⟨e, List.mem_cons_of_mem _ he, hx⟩
        · rw [if_neg hu] at h
          rcases List.mem_cons.mp h with h' | h'
          · exact ⟨(u, v), List.mem_cons_self _ _, Or.inl h'⟩
          · rcases List.mem_cons.mp h' with h'' | h''
            · exact ⟨(u, v), List.mem_cons_self _ _, Or.inr h''⟩
            · obtain ⟨e, he, hx⟩ := ih h''
              exact ⟨e, List.mem_cons_of_mem _ he, hx⟩

theorem mem_coEdgeKeys (G : Graph) (e : String × String) (h : e ∈ coEdgeKeys G) :
    ∃ d, (e, d) ∈ G.edges ∧ hasCoLabel d = true := by
  rw [coEdgeKeys] at h
  obtain ⟨⟨e', d⟩, he, hkey⟩ := List.mem_map.mp h
  obtain ⟨hmem, hco⟩ := List.mem_filter.mp he
  subst hkey
  exact ⟨d, hmem, hco⟩

/-- Structural guarantees on every reported cluster: more than two members,
sorted output, and every member touches a `co_author`-labeled edge. -/
theorem cluster_shape (G : Graph) (c : List String)
    (h : c ∈ find_coauthor_clusters_directed G) :
    2 < c.length ∧ List.Sorted strLe c ∧
      ∀ x ∈ c, ∃ u v d, ((u, v), d) ∈ G.edges ∧ hasCoLabel d = true ∧ (x = u ∨ x = v) := by
  rw [find_coauthor_clusters_directed] at h
  obtain ⟨hmem, hlen⟩ := List.mem_filter.mp h
  obtain ⟨comp, hcomp, hc⟩ := List.mem_map.mp hmem
  subst hc
  refine ⟨by simpa using hlen, sortNames_sorted comp, ?_⟩
  intro x hx
  have hx' : x ∈ comp := (mem_sortNames comp x).mp hx
  obtain ⟨n, hn, hcompEq⟩ := componentsOf_mem _ _ _ hcomp
  have hxn : x = n ∨ x ∈ coNodes (coEdgeKeys G) := by
    rw [hcompEq] at hx'
    exact mem_componentOf _ _ _ _ hx'
  have hnodes : x ∈ coNodes (coEdgeKeys G) := by
    rcases hxn with h' | h'
    · rw [h']; exact hn
    · exact h'
  obtain ⟨e, he, hend⟩ := mem_coNodes _ _ hnodes
  obtain ⟨d, hd, hco⟩ := mem_coEdgeKeys G e he
  exact ⟨e.1, e.2, d, by simpa using hd, hco, hend⟩

/-! ### Count arithmetic helpers -/

theorem edCount_append (l1 l2 : List Record) (p : String) :
    edCount (l1 ++ l2) p = edCount l1 p + edCount l2 p := by
  induction l1 with
  | nil => rw [List.nil_append, edCount, Nat.zero_add]
  | cons r l1 ih => rw [List.cons_append, edCount, edCount, ih]; omega

theorem auCount_append (l1 l2 : List Record) (p : String) :
    auCount (l1 ++ l2) p = auCount l1 p + auCount l2 p := by
  induction l1 with
  | nil => rw [List.nil_append, auCount, Nat.zero_add]
  | cons r l1 ih => rw [List.cons_append, auCount, auCount, ih]; omega

theorem edauTotal_append (l1 l2 : List Record) (u v : String) :
    edauTotal (l1 ++ l2) u v = edauTotal l1 u v + edauTotal l2 u v := by
  induction l1 with
  | nil => rw [List.nil_append, edauTotal, Nat.zero_add]
  | cons r l1 ih => rw [List.cons_append, edauTotal, edauTotal, ih]; omega

theorem coTotal_append (l1 l2 : List Record) (u v : String) :
    coTotal (l1 ++ l2) u v = coTotal l1 u v + coTotal l2 u v := by
  induction l1 with
  | nil => rw [List.nil_append, coTotal, Nat.zero_add]
  | cons r l1 ih => rw [List.cons_append, coTotal, coTotal, ih]; omega

theorem coPairCount_symm (as : List String) (u v : String) :
    coPairCount as u v = coPairCount as v u := by
  induction as with
  | nil => rfl
  | cons a rest ih => rw [coPairCount, coPairCount, ih]; omega

theorem coTotal_symm (arts : List Record) (u v : String) :
    coTotal arts u v = coTotal arts v u := by
  induction arts with
  | nil => rfl
  | cons r rest ih =>
      rw [coTotal, coTotal, ih]
      have : coOcc r u v = coOcc r v u := coPairCount_symm _ _ _
      omega

theorem coTotal_pos_of_mem (arts : List Record) (r : Record) (u v : String)
    (hr : r ∈ arts) (h : 0 < coOcc r u v) : 0 < coTotal arts u v := by
  induction arts with
  | nil => cases hr
  | cons r' rest ih =>
      rw [coTotal]
      rcases List.mem_cons.mp hr with h' | h'
      · subst h'
        omega
      · have := ih h'
        omega

theorem relUniverse_occur (s : String) (h : s ∈ relUniverse) :
    strOccur s "editor_to_author" =
      if strContains s "editor_to_author" = true then 1 else 0 := by
  simp only [relUniverse, List.mem_cons, List.not_mem_nil, or_false] at h
  rcases h with h | h | h | h <;> subst h <;> decide

/-! ### Concrete example records -/

/-- Editor `e` of a work authored by `a`, venue `j1 :: s1`. -/
def cexR1 : Record := ⟨"t1", "j1", "s1", ["e"], ["a"]⟩

/-- A plain co-authorship of `e` and `a`, venue `j2 :: s2`. -/
def cexR2 : Record := ⟨"t2", "j2", "s2", [], ["e", "a"]⟩

/-- Editor `x` of a work authored by `e`, same venue `j2 :: s2`. -/
def cexR3 : Record := ⟨"t3", "j2", "s2", ["x"], ["e"]⟩

/-- Editor `a` of a work authored by `e`, venue `j4 :: s4`. -/
def cexR4 : Record := ⟨"t4", "j4", "s4", ["a"], ["e"]⟩

/-- Three authors co-authoring one article. -/
def c6r3 : Record := ⟨"t", "j", "s", [], ["x", "y", "z"]⟩

/-- Two authors co-authoring alone. -/
def c6r2 : Record := ⟨"t", "j", "s", [], ["x", "y"]⟩

/-- Per-source record lists seen by the loader (empty for unusable sources). -/
def goodRecords : Source → List Record
  | .parsed rs => rs
  | .missing => []
  | .unopenable => []
  | .malformed => []

/-! ### Claim theorems -/

/-- Counterexample to C8 as stated: an unreadable source is not skipped. For
a source list holding one existing-but-unopenable source followed by one
parsed source, the claim predicts the concatenation of the successfully
parsed sources, but the uncaught exception out of the unguarded `open` call
aborts the whole load and nothing is returned. -/
theorem claim_C8_cex :
    load_and_merge_data [Source.unopenable, Source.parsed [cexR1]] = none ∧
    load_and_merge_data [Source.unopenable, Source.parsed [cexR1]] ≠
      some (([Source.unopenable, Source.parsed [cexR1]].map goodRecords).join) := by
  refine ⟨rfl, ?_⟩
  decide

/-- C8 (amended): the loader tolerates missing and malformed sources — a
missing path is skipped, a source whose content fails to parse contributes
nothing, parsed sources contribute in order, and when no source is
existing-but-unopenable the result is exactly the in-order concatenation of
the successfully parsed sources' records (the empty list when none is
usable); but a source that exists and cannot be opened raises out of the
unguarded `open` call and aborts the entire load, yielding no result. -/
theorem claim_C8 :
    (∀ rest, load_and_merge_data (Source.missing :: rest) = load_and_merge_data rest) ∧
    (∀ rest, load_and_merge_data (Source.malformed :: rest) = load_and_merge_data rest) ∧
    (∀ rs rest, load_and_merge_data (Source.parsed rs :: rest) =
      (load_and_merge_data rest).map (fun l => rs ++ l)) ∧
    (∀ rest, load_and_merge_data (Source.unopenable :: rest) = none) ∧
    (∀ sources, Source.unopenable ∉ sources →
      load_and_merge_data sources = some ((sources.map goodRecords).join)) ∧
    (∀ sources, Source.unopenable ∈ sources → load_and_merge_data sources = none) := by
  refine ⟨fun rest => rfl, fun rest => rfl, fun rs rest => rfl, fun rest => rfl, ?_, ?_⟩
  · intro sources h
    induction sources with
    | nil => rfl
    | cons s rest ih =>
        have hs : s ≠ Source.unopenable := fun he => h (by rw [he]; exact List.mem_cons_self _ _)
        have hrest : Source.unopenable ∉ rest := fun hm => h (List.mem_cons_of_mem _ hm)
        cases s with
        | missing => simpa [load_and_merge_data, goodRecords] using ih hrest
        | unopenable => exact absurd rfl hs
        | malformed => simpa [load_and_merge_data, goodRecords] using ih hrest
        | parsed rs => simp [load_and_merge_data, goodRecords, ih hrest]
  · intro sources h
    induction sources with
    | nil => cases h
    | cons s rest ih =>
        cases s with
        | missing =>
            have hm : Source.unopenable ∈ rest := by
              rcases List.mem_cons.mp h with h' | h'
              · cases h'
              · exact h'
            simpa [load_and_merge_data] using ih hm
        | unopenable => rfl
        | malformed =>
            have hm : Source.unopenable ∈ rest := by
              rcases List.mem_cons.mp h with h' | h'
              · cases h'
              · exact h'
            simpa [load_and_merge_data] using ih hm
        | parsed rs =>
            have hm : Source.unopenable ∈ rest := by
              rcases List.mem_cons.mp h with h' | h'
              · cases h'
              · exact h'
            show (load_and_merge_data rest).map (fun l => rs ++ l) = none
            rw [ih hm]
            rfl

/-- Witness for C8 (amended) at concrete source lists: a load with a missing,
a malformed and a parsed source succeeds with the parsed records, and a load
containing an unopenable source aborts. -/
theorem claim_C8_witness :
    Source.unopenable ∉ [Source.missing, Source.malformed, Source.parsed [cexR1]] ∧
    load_and_merge_data [Source.missing, Source.malformed, Source.parsed [cexR1]] =
      some (([Source.missing, Source.malformed, Source.parsed [cexR1]].map goodRecords).join) ∧
    Source.unopenable ∈ [Source.parsed [cexR1], Source.unopenable] ∧
    load_and_merge_data [Source.parsed [cexR1], Source.unopenable] = none :=
  ⟨by decide,
    claim_C8.2.2.2.2.1 [Source.missing, Source.malformed, Source.parsed [cexR1]] (by decide),
    by decide,
    claim_C8.2.2.2.2.2 [Source.parsed [cexR1], Source.unopenable] (by decide)⟩

/-- C3: self-overlap detection reports each (person, venue) combination at
most once: the output contains the record `{person, issue}` exactly once when
some editor-to-author edge gives the person the editor role at that venue and
some such edge gives them the author role there, and never otherwise — no
matter how many records produced the overlap. -/
theorem claim_C3 (G : Graph) (p iss : String) :
    countSO (detect_suspicious_patterns G).self_overlap ⟨p, iss⟩ =
      if editorAt G.edges p iss && authorAt G.edges p iss then 1 else 0 :=
  countSO_self_overlaps G p iss

/-- C5: the scorer is a pure fold: a person's entry equals 3 per self-overlap
entry naming them plus 2 per reciprocal slot naming them, accumulated
additively, and is absent exactly when they are implicated in no entry; in
particular one self-overlap plus one reciprocal slot scores exactly 5. -/
theorem claim_C5 :
    (∀ s p, lookupA (score_suspicion s) p =
      if 3 * soPersonCount s.self_overlap p + 2 * recipACount s.reciprocal p +
          2 * recipBCount s.reciprocal p = 0 then none
      else some (3 * soPersonCount s.self_overlap p + 2 * recipACount s.reciprocal p +
          2 * recipBCount s.reciprocal p)) ∧
    ∀ s p, soPersonCount s.self_overlap p = 1 →
      recipACount s.reciprocal p + recipBCount s.reciprocal p = 1 →
      lookupA (score_suspicion s) p = some 5 := by
  refine ⟨score_char, ?_⟩
  intro s p h1 h2
  rw [score_char, if_neg (by omega)]
  congr 1
  omega

/-- A concrete detector output with one self-overlap and one reciprocal
entry implicating person `p`. -/
def c5s : Suspicions := ⟨[⟨"p", "v"⟩], [⟨"p", "q", ["v1"], ["v2"]⟩]⟩

/-- Witness for C5 at a concrete detection output. -/
theorem claim_C5_witness :
    soPersonCount c5s.self_overlap "p" = 1 ∧
    recipACount c5s.reciprocal "p" + recipBCount c5s.reciprocal "p" = 1 ∧
    lookupA (score_suspicion c5s) "p" = some 5 :=
  ⟨by decide, by decide, claim_C5.2 c5s "p" (by decide) (by decide)⟩

/-- C7: building the graph from a record list concatenated with itself keeps
exactly the same node and edge keys, doubles every node's counters, doubles
every edge's `issues` and `titles` lengths, and leaves the relationship
label set unchanged. -/
theorem claim_C7 (arts : List Record) :
    (∀ p, lookupA (build_graph (arts ++ arts)).nodes p =
      (lookupA (build_graph arts).nodes p).map
        (fun nd => ⟨nd.name, 2 * nd.editor_count, 2 * nd.author_count⟩)) ∧
    (∀ u v, (lookupA (build_graph (arts ++ arts)).edges (u, v)).isSome =
      (lookupA (build_graph arts).edges (u, v)).isSome) ∧
    ∀ u v d d', lookupA (build_graph arts).edges (u, v) = some d →
      lookupA (build_graph (arts ++ arts)).edges (u, v) = some d' →
      d'.issues.length = 2 * d.issues.length ∧
      d'.titles.length = 2 * d.titles.length ∧
      (hasEdLabel d' = true ↔ hasEdLabel d = true) ∧
      (hasCoLabel d' = true ↔ hasCoLabel d = true) := by
  refine ⟨?_, ?_, ?_⟩
  · intro p
    rw [build_node_char, build_node_char, edCount_append, auCount_append]
    by_cases h : edCount arts p + auCount arts p = 0
    · rw [if_pos h, if_pos (by omega)]
      rfl
    · rw [if_neg h, if_neg (by omega)]
      rw [show edCount arts p + edCount arts p = 2 * edCount arts p from by omega,
        show auCount arts p + auCount arts p = 2 * auCount arts p from by omega]
      rfl
  · intro u v
    have h1 := build_edge_char arts u v
    have h2 := build_edge_char (arts ++ arts) u v
    rw [edauTotal_append, coTotal_append] at h2
    cases ho1 : lookupA (build_graph arts).edges (u, v) with
    | none =>
        rw [ho1] at h1
        obtain ⟨hE, hC⟩ := h1
        cases ho2 : lookupA (build_graph (arts ++ arts)).edges (u, v) with
        | none => rfl
        | some d' =>
            rw [ho2] at h2
            exact absurd h2.1 (by omega)
    | some d =>
        rw [ho1] at h1
        cases ho2 : lookupA (build_graph (arts ++ arts)).edges (u, v) with
        | none =>
            rw [ho2] at h2
            obtain ⟨hE2, hC2⟩ := h2
            exact absurd h1.1 (by omega)
        | some d' => rfl
  · intro u v d d' hd hd'
    have h1 := build_edge_char arts u v
    have h2 := build_edge_char (arts ++ arts) u v
    rw [edauTotal_append, coTotal_append] at h2
    rw [hd] at h1
    rw [hd'] at h2
    obtain ⟨_, hiss1, htit1, _, hed1, hco1⟩ := h1
    obtain ⟨_, hiss2, htit2, _, hed2, hco2⟩ := h2
    refine ⟨by omega, by omega, ?_, ?_⟩
    · exact hed2.trans ((by omega : 0 < edauTotal arts u v + edauTotal arts u v ↔
        0 < edauTotal arts u v).trans hed1.symm)
    · exact hco2.trans ((by omega : 0 < coTotal arts u v + coTotal arts u v ↔
        0 < coTotal arts u v).trans hco1.symm)

/-- Witness for C7 at a concrete record list. -/
theorem claim_C7_witness :
    lookupA (build_graph [cexR1]).edges ("e", "a") =
      some ⟨"editor_to_author", ["j1 :: s1"], ["t1"]⟩ ∧
    lookupA (build_graph ([cexR1] ++ [cexR1])).edges ("e", "a") =
      some ⟨"editor_to_author", ["j1 :: s1", "j1 :: s1"], ["t1", "t1"]⟩ ∧
    (⟨"editor_to_author", ["j1 :: s1", "j1 :: s1"], ["t1", "t1"]⟩ : EdgeData).issues.length =
      2 * (⟨"editor_to_author", ["j1 :: s1"], ["t1"]⟩ : EdgeData).issues.length ∧
    (⟨"editor_to_author", ["j1 :: s1", "j1 :: s1"], ["t1", "t1"]⟩ : EdgeData).titles.length =
      2 * (⟨"editor_to_author", ["j1 :: s1"], ["t1"]⟩ : EdgeData).titles.length := by
  refine ⟨by decide, by decide, ?_, ?_⟩
  · exact ((claim_C7 [cexR1]).2.2 "e" "a" _ _ (by decide) (by decide)).1
  · exact ((claim_C7 [cexR1]).2.2 "e" "a" _ _ (by decide) (by decide)).2.1

/-- Counterexample to C1 as stated: when the ordered pair also co-authors, the
shared `issues` list is longer than the number of editor-to-author
contributions. With one editor-to-author contribution and one co-authorship
contribution the list has length 2, not 1. -/
theorem claim_C1_cex :
    edauTotal [cexR1, cexR2] "e" "a" = 1 ∧
    (lookupA (build_graph [cexR1, cexR2]).edges ("e", "a")).map
      (fun d => d.issues.length) = some 2 ∧
    (lookupA (build_graph [cexR1, cexR2]).edges ("e", "a")).map
      (fun d => d.issues.length) ≠ some (edauTotal [cexR1, cexR2] "e" "a") := by
  refine ⟨by decide, by decide, ?_⟩
  decide

/-- C1 (amended): the built graph has at most one edge per ordered pair; the
edge for `(u, v)` exists iff there is at least one editor-to-author or
co-authorship contribution, its shared `issues` and `titles` lists have
length equal to the number of editor-to-author contributions plus the number
of co-authorship contributions, and its relationship label contains
`editor_to_author` exactly once when at least one editor-to-author
contribution exists and never otherwise. -/
theorem claim_C1 (arts : List Record) (u v : String) :
    ((build_graph arts).edges.map Prod.fst).Nodup ∧
    ((lookupA (build_graph arts).edges (u, v)).isSome ↔
      0 < edauTotal arts u v + coTotal arts u v) ∧
    ∀ d, lookupA (build_graph arts).edges (u, v) = some d →
      d.issues.length = edauTotal arts u v + coTotal arts u v ∧
      d.titles.length = edauTotal arts u v + coTotal arts u v ∧
      strOccur d.relationship "editor_to_author" =
        (if 0 < edauTotal arts u v then 1 else 0) := by
  have hc := build_edge_char arts u v
  refine ⟨build_edges_keys_nodup arts, ?_, ?_⟩
  · cases ho : lookupA (build_graph arts).edges (u, v) with
    | none =>
        rw [ho] at hc
        obtain ⟨hE, hC⟩ := hc
        simp only [Option.isSome_none, Bool.false_eq_true, false_iff]
        omega
    | some d =>
        rw [ho] at hc
        simp only [Option.isSome_some, true_iff]
        exact hc.1
  · intro d hd
    rw [hd] at hc
    obtain ⟨hpos, hiss, htit, hmem, hed, hco⟩ := hc
    refine ⟨hiss, htit, ?_⟩
    rw [relUniverse_occur _ hmem]
    by_cases hE : 0 < edauTotal arts u v
    · rw [if_pos hE, if_pos (hed.mpr hE)]
    · rw [if_neg hE]
      rw [if_neg (fun hc' => hE (hed.mp hc'))]

/-- Witness for C1 (amended) at a concrete record list. -/
theorem claim_C1_witness :
    lookupA (build_graph [cexR1, cexR2]).edges ("e", "a") =
      some ⟨"editor_to_author,co_author", ["j1 :: s1", "j2 :: s2"], ["t1", "t2"]⟩ ∧
    (⟨"editor_to_author,co_author", ["j1 :: s1", "j2 :: s2"],
        ["t1", "t2"]⟩ : EdgeData).issues.length =
      edauTotal [cexR1, cexR2] "e" "a" + coTotal [cexR1, cexR2] "e" "a" ∧
    strOccur ("editor_to_author,co_author") "editor_to_author" =
      (if 0 < edauTotal [cexR1, cexR2] "e" "a" then 1 else 0) := by
  refine ⟨by decide, ?_, ?_⟩
  · exact ((claim_C1 [cexR1, cexR2] "e" "a").2.2
      ⟨"editor_to_author,co_author", ["j1 :: s1", "j2 :: s2"], ["t1", "t2"]⟩ (by decide)).1
  · exact ((claim_C1 [cexR1, cexR2] "e" "a").2.2
      ⟨"editor_to_author,co_author", ["j1 :: s1", "j2 :: s2"], ["t1", "t2"]⟩ (by decide)).2.2

/-- The ordered pair carries the `co_author` label iff it has a co-authorship
contribution. -/
theorem co_edge_iff (arts : List Record) (u v : String) :
    (∃ d, lookupA (build_graph arts).edges (u, v) = some d ∧ hasCoLabel d = true) ↔
      0 < coTotal arts u v := by
  have hc := build_edge_char arts u v
  cases ho : lookupA (build_graph arts).edges (u, v) with
  | none =>
      rw [ho] at hc
      obtain ⟨hE, hC⟩ := hc
      constructor
      · rintro ⟨d, hd, _⟩
        cases hd
      · intro h
        omega
  | some d =>
      rw [ho] at hc
      obtain ⟨hpos, _, _, _, _, hco⟩ := hc
      constructor
      · rintro ⟨d', hd', hco'⟩
        injection hd' with hdd
        subst hdd
        exact hco.mp hco'
      · intro h
        exact ⟨d, rfl, hco.mpr h⟩

/-- C2: every unordered author pair of a record yields exactly two directed
edges, one in each direction, both carrying the `co_author` label (edge keys
are unique, so there is exactly one edge per direction); an edge carries
`co_author` iff its reverse edge exists and carries `co_author`; and
editor-to-author edges are one-directional: a record with a single editor
and a single distinct author yields no reverse edge at all. -/
theorem claim_C2 :
    (∀ arts (r : Record) (u v : String), r ∈ arts → 0 < coOcc r u v →
      (∃ d, lookupA (build_graph arts).edges (u, v) = some d ∧ hasCoLabel d = true) ∧
      (∃ d, lookupA (build_graph arts).edges (v, u) = some d ∧ hasCoLabel d = true)) ∧
    (∀ arts (u v : String),
      (∃ d, lookupA (build_graph arts).edges (u, v) = some d ∧ hasCoLabel d = true) ↔
      (∃ d, lookupA (build_graph arts).edges (v, u) = some d ∧ hasCoLabel d = true)) ∧
    (∀ arts, ((build_graph arts).edges.map Prod.fst).Nodup) ∧
    ((∃ d, lookupA (build_graph [cexR1]).edges ("e", "a") = some d ∧
        hasEdLabel d = true) ∧
      lookupA (build_graph [cexR1]).edges ("a", "e") = none) := by
  refine ⟨?_, ?_, build_edges_keys_nodup, ?_, by decide⟩
  · intro arts r u v hr hco
    have h1 : 0 < coTotal arts u v := coTotal_pos_of_mem arts r u v hr hco
    have h2 : 0 < coTotal arts v u := by
      rw [← coTotal_symm]
      exact h1
    exact ⟨(co_edge_iff arts u v).mpr h1, (co_edge_iff arts v u).mpr h2⟩
  · intro arts u v
    rw [co_edge_iff, co_edge_iff, coTotal_symm]
  · exact ⟨⟨"editor_to_author", ["j1 :: s1"], ["t1"]⟩, by decide, by decide⟩

/-- Witness for C2 at a concrete record list. -/
theorem claim_C2_witness :
    cexR2 ∈ [cexR2] ∧ 0 < coOcc cexR2 "e" "a" ∧
    ((∃ d, lookupA (build_graph [cexR2]).edges ("e", "a") = some d ∧
        hasCoLabel d = true) ∧
      ∃ d, lookupA (build_graph [cexR2]).edges ("a", "e") = some d ∧
        hasCoLabel d = true) :=
  ⟨by decide, by decide, claim_C2.1 [cexR2] cexR2 "e" "a" (by decide) (by decide)⟩

/-- An `editor_to_author` edge with a nonempty venue list yields exactly its
issues list as its `ed_au_map` entry. -/
theorem ed_au_entry (G : Graph) (hnd : (G.edges.map Prod.fst).Nodup)
    (w : String × String) (d : EdgeData) (h : lookupA G.edges w = some d)
    (hed : hasEdLabel d = true) (hne : d.issues ≠ []) :
    lookupA (ed_au_map G) w = some d.issues := by
  rw [ed_au_map_lookup G hnd]
  have hc : edContrib G.edges w = d.issues := by
    unfold edContrib
    rw [h]
    show (if hasEdLabel d = true then d.issues else []) = d.issues
    rw [if_pos hed]
  rw [hc, if_neg hne]

/-- C4: for distinct people with `editor_to_author` edges in both directions,
reciprocal detection emits exactly one record for each ordering of the pair
— two records total, carrying the two edges' venue lists in the appropriate
slots — with no deduplication to one record per unordered pair. -/
theorem claim_C4 (G : Graph) (hnd : (G.edges.map Prod.fst).Nodup)
    (A B V1 V2 : String) (hAB : A ≠ B)
    (d1 : EdgeData) (h1 : lookupA G.edges (A, B) = some d1)
    (h1ed : hasEdLabel d1 = true) (h1iss : d1.issues = [V1])
    (d2 : EdgeData) (h2 : lookupA G.edges (B, A) = some d2)
    (h2ed : hasEdLabel d2 = true) (h2iss : d2.issues = [V2]) :
    countRAB (detect_suspicious_patterns G).reciprocal A B = 1 ∧
    countRAB (detect_suspicious_patterns G).reciprocal B A = 1 ∧
    (⟨A, B, [V1], [V2]⟩ : Recip) ∈ (detect_suspicious_patterns G).reciprocal ∧
    (⟨B, A, [V2], [V1]⟩ : Recip) ∈ (detect_suspicious_patterns G).reciprocal := by
  have hmnd := ed_au_map_keys_nodup G
  have hA : lookupA (ed_au_map G) (A, B) = some [V1] := by
    rw [ed_au_entry G hnd (A, B) d1 h1 h1ed (by rw [h1iss]; simp), h1iss]
  have hB : lookupA (ed_au_map G) (B, A) = some [V2] := by
    rw [ed_au_entry G hnd (B, A) d2 h2 h2ed (by rw [h2iss]; simp), h2iss]
  have hrecip : (detect_suspicious_patterns G).reciprocal =
      recipOfMap [] (ed_au_map G) (ed_au_map G) := rfl
  refine ⟨?_, ?_, ?_, ?_⟩
  · rw [hrecip, countRAB_recipOfMap _ _ _ _ _ hmnd, hA, hB]
    rfl
  · rw [hrecip, countRAB_recipOfMap _ _ _ _ _ hmnd, hB, hA]
    rfl
  · rw [hrecip]
    refine countRF_pos_mem _ _ ?_
    rw [countRF_recipOfMap _ _ _ _ _ _ _ hmnd, hA, hB]
    rw [if_pos (⟨rfl, rfl⟩ : (some [V1] : Option (List String)) = some [V1] ∧
      (some [V2] : Option (List String)) = some [V2])]
    omega
  · rw [hrecip]
    refine countRF_pos_mem _ _ ?_
    rw [countRF_recipOfMap _ _ _ _ _ _ _ hmnd, hA, hB]
    rw [if_pos (⟨rfl, rfl⟩ : (some [V2] : Option (List String)) = some [V2] ∧
      (some [V1] : Option (List String)) = some [V1])]
    omega

/-- A concrete graph with mutually editing people `a` and `b`. -/
def c4g : Graph :=
  ⟨[], [(("a", "b"), ⟨"editor_to_author", ["v1"], ["t1"]⟩),
        (("b", "a"), ⟨"editor_to_author", ["v2"], ["t2"]⟩)]⟩

/-- Witness for C4 at a concrete graph. -/
theorem claim_C4_witness :
    ((c4g.edges.map Prod.fst).Nodup ∧ "a" ≠ "b") ∧
    countRAB (detect_suspicious_patterns c4g).reciprocal "a" "b" = 1 ∧
    countRAB (detect_suspicious_patterns c4g).reciprocal "b" "a" = 1 ∧
    (⟨"a", "b", ["v1"], ["v2"]⟩ : Recip) ∈ (detect_suspicious_patterns c4g).reciprocal ∧
    (⟨"b", "a", ["v2"], ["v1"]⟩ : Recip) ∈ (detect_suspicious_patterns c4g).reciprocal :=
  ⟨⟨by decide, by decide⟩,
    claim_C4 c4g (by decide) "a" "b" "v1" "v2" (by decide)
      ⟨"editor_to_author", ["v1"], ["t1"]⟩ (by decide) (by decide) (by decide)
      ⟨"editor_to_author", ["v2"], ["t2"]⟩ (by decide) (by decide) (by decide)⟩

/-- C9: an `editor_to_author` self-loop makes the pair its own reverse: the
detector emits exactly one reciprocal record with `personA = personB`, both
venue slots holding the loop's venue list, and scoring that single record
adds 2 for `personA` plus 2 for `personB` to the same person — 4 in total. -/
theorem claim_C9 (G : Graph) (hnd : (G.edges.map Prod.fst).Nodup)
    (u : String) (d : EdgeData) (h : lookupA G.edges (u, u) = some d)
    (hed : hasEdLabel d = true) (I : List String) (hI : d.issues = I) (hne : I ≠ []) :
    countRAB (detect_suspicious_patterns G).reciprocal u u = 1 ∧
    (⟨u, u, I, I⟩ : Recip) ∈ (detect_suspicious_patterns G).reciprocal ∧
    lookupA (score_suspicion ⟨[], [⟨u, u, I, I⟩]⟩) u = some 4 := by
  have hmnd := ed_au_map_keys_nodup G
  have hU : lookupA (ed_au_map G) (u, u) = some I := by
    rw [ed_au_entry G hnd (u, u) d h hed (by rw [hI]; exact hne), hI]
  have hrecip : (detect_suspicious_patterns G).reciprocal =
      recipOfMap [] (ed_au_map G) (ed_au_map G) := rfl
  refine ⟨?_, ?_, ?_⟩
  · rw [hrecip, countRAB_recipOfMap _ _ _ _ _ hmnd, hU]
    rfl
  · rw [hrecip]
    refine countRF_pos_mem _ _ ?_
    rw [countRF_recipOfMap _ _ _ _ _ _ _ hmnd, hU]
    rw [if_pos (⟨rfl, rfl⟩ : (some I : Option (List String)) = some I ∧
      (some I : Option (List String)) = some I)]
    omega
  · have hsc := score_char ⟨[], [⟨u, u, I, I⟩]⟩ u
    have hso : soPersonCount (Suspicions.mk [] [⟨u, u, I, I⟩]).self_overlap u = 0 := rfl
    have hra : recipACount (Suspicions.mk [] [⟨u, u, I, I⟩]).reciprocal u = 1 := by
      show (if u = u then 1 else 0) + 0 = 1
      rw [if_pos rfl]
    have hrb : recipBCount (Suspicions.mk [] [⟨u, u, I, I⟩]).reciprocal u = 1 := by
      show (if u = u then 1 else 0) + 0 = 1
      rw [if_pos rfl]
    rw [hso, hra, hrb] at hsc
    rw [hsc]
    rfl

/-- A concrete graph with an editor-to-author self-loop on `a`. -/
def c9g : Graph := ⟨[], [(("a", "a"), ⟨"editor_to_author", ["v1"], ["t1"]⟩)]⟩

/-- Witness for C9 at a concrete graph. -/
theorem claim_C9_witness :
    (c9g.edges.map Prod.fst).Nodup ∧
    countRAB (detect_suspicious_patterns c9g).reciprocal "a" "a" = 1 ∧
    (⟨"a", "a", ["v1"], ["v1"]⟩ : Recip) ∈ (detect_suspicious_patterns c9g).reciprocal ∧
    lookupA (score_suspicion ⟨[], [⟨"a", "a", ["v1"], ["v1"]⟩]⟩) "a" = some 4 :=
  ⟨by decide,
    claim_C9 c9g (by decide) "a" ⟨"editor_to_author", ["v1"], ["t1"]⟩ (by decide)
      (by decide) ["v1"] (by decide) (by decide)⟩

/-- C6: cluster analysis keeps exactly the `co_author`-labeled edges,
symmetrizes, and reports only connected components of size above two as
sorted name sequences: three authors of one article form one cluster of
size 3, two authors alone form none, and every reported cluster has more
than two members, is sorted, and consists of endpoints of `co_author`
edges. -/
theorem claim_C6 :
    find_coauthor_clusters_directed (build_graph [c6r3]) = [["x", "y", "z"]] ∧
    find_coauthor_clusters_directed (build_graph [c6r2]) = [] ∧
    ∀ G c, c ∈ find_coauthor_clusters_directed G →
      2 < c.length ∧ List.Sorted strLe c ∧
      ∀ x ∈ c, ∃ u v d, ((u, v), d) ∈ G.edges ∧ hasCoLabel d = true ∧ (x = u ∨ x = v) := by
  refine ⟨by decide, by decide, ?_⟩
  intro G c h
  exact cluster_shape G c h

/-- Witness for C6 at the three-author example. -/
theorem claim_C6_witness :
    (["x", "y", "z"] ∈ find_coauthor_clusters_directed (build_graph [c6r3])) ∧
    2 < (["x", "y", "z"] : List String).length ∧
    List.Sorted strLe (["x", "y", "z"] : List String) :=
  ⟨by decide,
    (claim_C6.2.2 (build_graph [c6r3]) ["x", "y", "z"] (by decide)).1,
    (claim_C6.2.2 (build_graph [c6r3]) ["x", "y", "z"] (by decide)).2.1⟩

/-- C10: an edge keeps one shared `issues` list for all its relationship
kinds, so the detector attributes venues contributed solely by co-authorship
records to editor/author roles and reciprocal venue lists: venue `j2 :: s2`
reaches edge `(e, a)` only through the co-authorship record `cexR2`, yet the
self-overlap `(e, j2 :: s2)` is reported (and disappears without `cexR2`),
and the reciprocal record for `(e, a)` lists `j2 :: s2` in both directions'
venue slots. -/
theorem claim_C10 :
    lookupA (build_graph [cexR1, cexR2, cexR3]).edges ("e", "a") =
      some ⟨"editor_to_author,co_author", ["j1 :: s1", "j2 :: s2"], ["t1", "t2"]⟩ ∧
    (⟨"e", "j2 :: s2"⟩ : SelfOverlap) ∈
      (detect_suspicious_patterns (build_graph [cexR1, cexR2, cexR3])).self_overlap ∧
    (⟨"e", "j2 :: s2"⟩ : SelfOverlap) ∉
      (detect_suspicious_patterns (build_graph [cexR1, cexR3])).self_overlap ∧
    (⟨"e", "a", ["j1 :: s1", "j2 :: s2"], ["j2 :: s2", "j4 :: s4"]⟩ : Recip) ∈
      (detect_suspicious_patterns (build_graph [cexR1, cexR2, cexR4])).reciprocal := by
  refine ⟨by decide, by decide, by decide, by decide⟩

end MDPI
